import Mathlib

/-!
Verification of the webredis key enumeration and value (de)serialization
layer.  The Go backend (embedded in `src/README.md`: `listKeys`, `getKey`,
`isBinary`, `setKey`, `deleteKey`) and the frontend namespace-tree builder
(`buildTree` in `src/unnamed/part_000`) are shallowly embedded below.  Go
byte strings are modelled as `List Nat` (each element a byte value), Redis
values as an inductive `RVal`, the JSON values produced by Go's
`encoding/json` as an inductive `Json`, and `time.Duration` as an `Int`
number of nanoseconds with `Seconds()` returning an exact rational.
-/

namespace WebRedis

/-- Go strings are byte strings; we model them as lists of byte values. -/
abbrev ByteStr := List Nat

/-- Bytes of an ASCII literal (all our literals are ASCII). -/
def bstr (s : String) : ByteStr := s.data.map Char.toNat

/-- Embeds `isBinary` (README.md lines 531-538): true iff some byte is
outside the printable ASCII range `[32,126]`. -/
def isBinary (s : ByteStr) : Bool := s.any (fun b => b < 32 || b > 126)

/-! ## Base64 (Go `encoding/base64` StdEncoding)

`getKey` wraps binary payloads with `base64.StdEncoding.EncodeToString`.
We model the standard alphabet with `=` padding; `b64decode` models
`DecodeString` (the default, non-strict decoder, which does not reject
non-zero trailing padding bits). -/

/-- The standard base64 alphabet, as byte values. -/
def b64Alphabet : ByteStr :=
  bstr "ABCDEFGHIJKLMNOPQRSTUVWXYZabcdefghijklmnopqrstuvwxyz0123456789+/"

/-- Character (byte value) for a six-bit group. -/
def b64Char (i : Nat) : Nat := b64Alphabet.getD i 65

/-- Index of a byte in the base64 alphabet, `none` for bytes outside it. -/
def b64Val (c : Nat) : Option Nat :=
  if 65 ≤ c ∧ c ≤ 90 then some (c - 65)
  else if 97 ≤ c ∧ c ≤ 122 then some (c - 71)
  else if 48 ≤ c ∧ c ≤ 57 then some (c + 4)
  else if c = 43 then some 62
  else if c = 47 then some 63
  else none

/-- Base64 encoding of a byte string (standard encoding, with padding). -/
def b64encode : ByteStr → ByteStr
  | [] => []
  | [a] => [b64Char (a / 4), b64Char (a % 4 * 16), 61, 61]
  | [a, b] => [b64Char (a / 4), b64Char (a % 4 * 16 + b / 16), b64Char (b % 16 * 4), 61]
  | a :: b :: c :: rest =>
      b64Char (a / 4) :: b64Char (a % 4 * 16 + b / 16) ::
      b64Char (b % 16 * 4 + c / 64) :: b64Char (c % 64) :: b64encode rest

/-- Base64 decoding; `none` on malformed input. -/
def b64decode : ByteStr → Option ByteStr
  | [] => some []
  | c1 :: c2 :: c3 :: c4 :: rest =>
      match b64Val c1, b64Val c2 with
      | some s1, some s2 =>
          if c3 = 61 ∧ c4 = 61 ∧ rest = [] then
            some [s1 * 4 + s2 / 16]
          else
            match b64Val c3 with
            | some s3 =>
                if c4 = 61 ∧ rest = [] then
                  some [s1 * 4 + s2 / 16, s2 % 16 * 16 + s3 / 4]
                else
                  match b64Val c4 with
                  | some s4 =>
                      match b64decode rest with
                      | some tailBytes =>
                          some ((s1 * 4 + s2 / 16) :: (s2 % 16 * 16 + s3 / 4) ::
                                (s3 % 4 * 64 + s4) :: tailBytes)
                      | none => none
                  | none => none
            | none => none
      | _, _ => none
  | _ => none

/-! ## Exact rationals

Go represents JSON numbers, sorted-set scores and `Duration.Seconds()`
results as `float64`.  We model them as exact rationals (a kernel-computable
replacement for `Rat`; every number below is small enough that `float64`
and the exact value agree on the (in)equalities we state).  Values are kept
normalized (reduced fraction, positive denominator) by the smart
constructor, so structural equality is value equality. -/

structure Q where
  num : Int
  den : Nat
deriving DecidableEq, Repr

/-- Normalized rational `n / d` (for `d ≠ 0`). -/
def qnorm (n : Int) (d : Nat) : Q :=
  let g := Nat.gcd n.natAbs d
  if g = 0 then ⟨0, 1⟩ else ⟨n.tdiv g, d / g⟩

def qint (n : Int) : Q := ⟨n, 1⟩

def qneg (a : Q) : Q := ⟨-a.num, a.den⟩

def qadd (a b : Q) : Q := qnorm (a.num * b.den + b.num * a.den) (a.den * b.den)

def qmul (a b : Q) : Q := qnorm (a.num * b.num) (a.den * b.den)

/-- `a ≤ b` by cross multiplication (denominators are positive). -/
def qle (a b : Q) : Bool := decide (a.num * b.den ≤ b.num * a.den)

/-- `math.Floor` (rounds toward negative infinity). -/
def qfloor (a : Q) : Int := a.num.fdiv a.den

/-! ## JSON values (Go `encoding/json` unmarshalled into `interface\x7b\x7d`)

Go decodes JSON into `nil` / `bool` / `float64` / `string` /
`[]interface\x7b\x7d` / `map[string]interface\x7b\x7d`.  We model numbers as
exact rationals (Go rounds to the nearest `float64` and rejects values out of
`float64` range; the claims below only involve small numbers where the two
agree) and objects as association lists in source order (Go map iteration
order is unspecified; field lookup takes the last occurrence, matching Go's
last-write-wins on duplicate keys). -/

inductive Json where
  | null : Json
  | bool (b : Bool) : Json
  | num (q : Q) : Json
  | str (s : ByteStr) : Json
  | arr (xs : List Json) : Json
  | obj (fields : List (ByteStr × Json)) : Json

/-- Field lookup in an object, last occurrence wins (Go builds a
`map[string]interface\x7b\x7d`, so a later duplicate key overwrites). -/
def objGet (fields : List (ByteStr × Json)) (k : ByteStr) : Option Json :=
  (fields.reverse.find? (fun f => f.1 == k)).map (fun f => f.2)

/-! ## JSON parser (model of `json.Unmarshal` on a byte slice) -/

/-- JSON whitespace bytes (space, tab, newline, carriage return). -/
def isWs (b : Nat) : Bool := b = 32 || b = 9 || b = 10 || b = 13

def skipWs : ByteStr → ByteStr
  | [] => []
  | b :: rest => if isWs b then skipWs rest else b :: rest

def isDigit (b : Nat) : Bool := 48 ≤ b && b ≤ 57

/-- Longest digit run at the front, as digit values. -/
def takeDigits : ByteStr → (List Nat × ByteStr)
  | [] => ([], [])
  | b :: r =>
      if isDigit b then
        let (ds, r2) := takeDigits r
        ((b - 48) :: ds, r2)
      else ([], b :: r)

def digitsToNat (ds : List Nat) : Nat := ds.foldl (fun a d => a * 10 + d) 0

def hexVal (b : Nat) : Option Nat :=
  if 48 ≤ b ∧ b ≤ 57 then some (b - 48)
  else if 97 ≤ b ∧ b ≤ 102 then some (b - 87)
  else if 65 ≤ b ∧ b ≤ 70 then some (b - 55)
  else none

/-- UTF-8 encoding of a code point, as Go appends it when decoding a
`\uXXXX` escape. -/
def utf8Enc (c : Nat) : List Nat :=
  if c < 128 then [c]
  else if c < 2048 then [192 + c / 64, 128 + c % 64]
  else if c < 65536 then [224 + c / 4096, 128 + c / 64 % 64, 128 + c % 64]
  else [240 + c / 262144, 128 + c / 4096 % 64, 128 + c / 64 % 64, 128 + c % 64]

/-- Combines four hex digits into a code unit, `none` on a non-hex byte. -/
def hex4 (h1 h2 h3 h4 : Nat) : Option Nat := do
  let d1 ← hexVal h1
  let d2 ← hexVal h2
  let d3 ← hexVal h3
  let d4 ← hexVal h4
  pure (((d1 * 16 + d2) * 16 + d3) * 16 + d4)

/-- String-literal body after the opening quote.  Raw control bytes below
0x20 are a syntax error in Go's scanner; `\uXXXX` escapes decode UTF-16,
turning unpaired surrogates into U+FFFD, as Go's `unquote` does (a valid
high/low surrogate escape pair combines; after a failed pair the second
escape is re-processed on its own). -/
def parseStrAux : Nat → ByteStr → Option (ByteStr × ByteStr)
  | 0, _ => none
  | _ + 1, [] => none
  | _ + 1, 34 :: r => some ([], r)
  | fuel + 1, 92 :: 117 :: h1 :: h2 :: h3 :: h4 :: 92 :: 117 :: g1 :: g2 :: g3 :: g4 :: r2 => do
      let u ← hex4 h1 h2 h3 h4
      if 55296 ≤ u ∧ u ≤ 56319 then
        match hex4 g1 g2 g3 g4 with
        | some u2 =>
            if 56320 ≤ u2 ∧ u2 ≤ 57343 then do
              let (cs, rest) ← parseStrAux fuel r2
              pure (utf8Enc (65536 + (u - 55296) * 1024 + (u2 - 56320)) ++ cs, rest)
            else do
              let (cs, rest) ← parseStrAux fuel (92 :: 117 :: g1 :: g2 :: g3 :: g4 :: r2)
              pure (utf8Enc 65533 ++ cs, rest)
        | none => do
            let (cs, rest) ← parseStrAux fuel (92 :: 117 :: g1 :: g2 :: g3 :: g4 :: r2)
            pure (utf8Enc 65533 ++ cs, rest)
      else do
        let v := if 56320 ≤ u ∧ u ≤ 57343 then 65533 else u
        let (cs, rest) ← parseStrAux fuel (92 :: 117 :: g1 :: g2 :: g3 :: g4 :: r2)
        pure (utf8Enc v ++ cs, rest)
  | fuel + 1, 92 :: 117 :: h1 :: h2 :: h3 :: h4 :: r => do
      let u ← hex4 h1 h2 h3 h4
      let v := if 55296 ≤ u ∧ u ≤ 57343 then 65533 else u
      let (cs, rest) ← parseStrAux fuel r
      pure (utf8Enc v ++ cs, rest)
  | fuel + 1, 92 :: e :: r => do
      let c ← match e with
        | 34 => some 34
        | 92 => some 92
        | 47 => some 47
        | 98 => some 8
        | 102 => some 12
        | 110 => some 10
        | 114 => some 13
        | 116 => some 9
        | _ => none
      let (cs, rest) ← parseStrAux fuel r
      pure (c :: cs, rest)
  | fuel + 1, b :: r =>
      if b < 32 then none
      else do
        let (cs, rest) ← parseStrAux fuel r
        pure (b :: cs, rest)

/-- Entry point for string-literal bodies: every step consumes at least one
byte, so a fuel of `length + 1` can never be exhausted. -/
def parseStrBody (s : ByteStr) : Option (ByteStr × ByteStr) :=
  parseStrAux (s.length + 1) s

/-- `10 ^ e` as a rational, for an integer exponent. -/
def pow10 (e : Int) : Q :=
  if 0 ≤ e then ⟨(10 : Int) ^ e.toNat, 1⟩ else ⟨1, 10 ^ (-e).toNat⟩

/-- Optional fraction part: `.` followed by one or more digits. -/
def parseFrac : ByteStr → Option (List Nat × ByteStr)
  | 46 :: r =>
      match takeDigits r with
      | ([], _) => none
      | (ds, r2) => some (ds, r2)
  | s => some ([], s)

/-- Optional exponent part: `e`/`E`, optional sign, one or more digits. -/
def parseExp : ByteStr → Option (Int × ByteStr)
  | b :: r =>
      if b = 101 ∨ b = 69 then
        let (esign, r1) : Bool × ByteStr :=
          match r with
          | 43 :: r2 => (false, r2)
          | 45 :: r2 => (true, r2)
          | _ => (false, r)
        match takeDigits r1 with
        | ([], _) => none
        | (ds, r2) =>
            some ((if esign then -(digitsToNat ds : Int) else (digitsToNat ds : Int)), r2)
      else some (0, b :: r)
  | [] => some (0, [])

/-- Assembles the parsed number parts into an exact rational. -/
def ratOfParts (neg : Bool) (ip : Nat) (frac : List Nat) (ex : Int) : Q :=
  let mant : Nat := ip * 10 ^ frac.length + digitsToNat frac
  let base : Q := qmul (qint mant) (pow10 (ex - frac.length))
  if neg then qneg base else base

/-- JSON number: `-? int frac? exp?` with `int = 0 | [1-9][0-9]*`. -/
def parseNum (s : ByteStr) : Option (Json × ByteStr) :=
  let (neg, s1) : Bool × ByteStr :=
    match s with
    | 45 :: r => (true, r)
    | _ => (false, s)
  match s1 with
  | [] => none
  | b :: r =>
      if b = 48 then do
        let (fds, s2) ← parseFrac r
        let (ex, s3) ← parseExp s2
        pure (Json.num (ratOfParts neg 0 fds ex), s3)
      else if isDigit b then do
        let (ds, r2) := takeDigits r
        let (fds, s2) ← parseFrac r2
        let (ex, s3) ← parseExp s2
        pure (Json.num (ratOfParts neg (digitsToNat ((b - 48) :: ds)) fds ex), s3)
      else none

mutual

/-- One JSON value; `fuel` only bounds recursion depth (a fuel of
`input length + 1` can never run out, since every recursive call is
preceded by consuming at least one byte). -/
def parseVal : Nat → ByteStr → Option (Json × ByteStr)
  | 0, _ => none
  | _ + 1, [] => none
  | fuel + 1, b :: rest =>
      if b = 110 then
        match rest with
        | 117 :: 108 :: 108 :: r => some (Json.null, r)
        | _ => none
      else if b = 116 then
        match rest with
        | 114 :: 117 :: 101 :: r => some (Json.bool true, r)
        | _ => none
      else if b = 102 then
        match rest with
        | 97 :: 108 :: 115 :: 101 :: r => some (Json.bool false, r)
        | _ => none
      else if b = 34 then
        match parseStrBody rest with
        | some (cs, r) => some (Json.str cs, r)
        | none => none
      else if b = 91 then
        match skipWs rest with
        | 93 :: r => some (Json.arr [], r)
        | r1 =>
            match parseElems fuel r1 with
            | some (xs, r) => some (Json.arr xs, r)
            | none => none
      else if b = 123 then
        match skipWs rest with
        | 125 :: r => some (Json.obj [], r)
        | r1 =>
            match parseMembers fuel r1 with
            | some (fs, r) => some (Json.obj fs, r)
            | none => none
      else parseNum (b :: rest)

/-- Comma-separated array elements up to the closing bracket. -/
def parseElems : Nat → ByteStr → Option (List Json × ByteStr)
  | 0, _ => none
  | fuel + 1, s =>
      match parseVal fuel (skipWs s) with
      | none => none
      | some (v, r) =>
          match skipWs r with
          | 44 :: r2 =>
              match parseElems fuel r2 with
              | some (xs, r3) => some (v :: xs, r3)
              | none => none
          | 93 :: r2 => some ([v], r2)
          | _ => none

/-- Comma-separated `"key": value` members up to the closing brace. -/
def parseMembers : Nat → ByteStr → Option (List (ByteStr × Json) × ByteStr)
  | 0, _ => none
  | fuel + 1, s =>
      match skipWs s with
      | 34 :: r =>
          match parseStrBody r with
          | none => none
          | some (k, r1) =>
              match skipWs r1 with
              | 58 :: r2 =>
                  match parseVal fuel (skipWs r2) with
                  | none => none
                  | some (v, r3) =>
                      match skipWs r3 with
                      | 44 :: r4 =>
                          match parseMembers fuel r4 with
                          | some (fs, r5) => some ((k, v) :: fs, r5)
                          | none => none
                      | 125 :: r4 => some ([(k, v)], r4)
                      | _ => none
              | _ => none
      | _ => none

end

/-- Model of `json.Unmarshal(data, &v)` for `v : interface\x7b\x7d`:
parses one value, allowing surrounding whitespace and rejecting trailing
garbage.  `none` models a non-nil unmarshal error. -/
def jsonParse (s : ByteStr) : Option Json :=
  match parseVal (s.length + 1) (skipWs s) with
  | some (v, r) => if skipWs r = [] then some v else none
  | none => none

/-! ## Decimal rendering

Used where Go formats a `float64` with the shortest round-tripping decimal
(`strconv.AppendFloat(-1)`): every number in this development originates
from a JSON decimal literal, so its denominator divides a power of ten and
the exact decimal rendering coincides with Go's. -/

def natDecAux : Nat → Nat → ByteStr
  | 0, _ => []
  | fuel + 1, n => if n < 10 then [48 + n] else natDecAux fuel (n / 10) ++ [48 + n % 10]

def natDec (n : Nat) : ByteStr := natDecAux (n + 1) n

def intDec (n : Int) : ByteStr :=
  if n < 0 then 45 :: natDec (-n).toNat else natDec n.toNat

/-- Smallest `k` with `den ∣ 10 ^ k`, searching up to the fuel bound. -/
def findScale (den : Nat) : Nat → Nat → Option Nat
  | 0, _ => none
  | fuel + 1, k => if 10 ^ k % den = 0 then some k else findScale den fuel (k + 1)

def leftPadZ (k : Nat) (ds : ByteStr) : ByteStr := List.replicate (k - ds.length) 48 ++ ds

/-- Decimal rendering of a rational whose denominator divides a power of
ten (always the case for values parsed from JSON); minimality of the scale
means no trailing zeros, matching Go's shortest `float64` formatting. -/
def qDec (q : Q) : ByteStr :=
  match findScale q.den 64 0 with
  | some 0 => intDec q.num
  | some k =>
      let scaled := q.num.natAbs * 10 ^ k / q.den
      let ip := scaled / 10 ^ k
      let fp := scaled % 10 ^ k
      (if q.num < 0 then [45] else []) ++ natDec ip ++ [46] ++ leftPadZ k (natDec fp)
  | none => intDec q.num ++ [47] ++ natDec q.den

/-! ## `json.Marshal` (used by `setKey` for non-string scalar values)

Escaping follows Go's default encoder: quote, backslash, `\n`, `\r`, `\t`,
other control bytes and the HTML-sensitive `<`, `>`, `&` as `\u00xx`.
Object keys are deduplicated (last wins) and sorted, as Go does for maps. -/

def hexDigitL (d : Nat) : Nat := if d < 10 then 48 + d else 87 + d

def escByte (b : Nat) : ByteStr :=
  if b = 34 then [92, 34]
  else if b = 92 then [92, 92]
  else if b = 10 then [92, 110]
  else if b = 13 then [92, 114]
  else if b = 9 then [92, 116]
  else if b < 32 ∨ b = 60 ∨ b = 62 ∨ b = 38 then
    [92, 117, 48, 48, hexDigitL (b / 16), hexDigitL (b % 16)]
  else [b]

/-- Lexicographic order on byte strings. -/
def byteLe : ByteStr → ByteStr → Bool
  | [], _ => true
  | _ :: _, [] => false
  | a :: as, b :: bs => if a < b then true else if b < a then false else byteLe as bs

/-- The field association list as the `map[string]interface\x7b\x7d` Go
builds from it: duplicate keys collapse, the last value wins. -/
def objPairs (fs : List (ByteStr × Json)) : List (ByteStr × Json) :=
  fs.foldl
    (fun acc f =>
      if (acc.find? (fun p => p.1 == f.1)).isSome
      then acc.map (fun p => if p.1 == f.1 then f else p)
      else acc ++ [f])
    []

/-- Insertion sort of object fields by key bytes. -/
def sortFieldsIns (f : ByteStr × Json) : List (ByteStr × Json) → List (ByteStr × Json)
  | [] => [f]
  | g :: gs => if byteLe f.1 g.1 then f :: g :: gs else g :: sortFieldsIns f gs

def sortFields (fs : List (ByteStr × Json)) : List (ByteStr × Json) :=
  fs.foldr sortFieldsIns []

mutual

/-- Structural nesting depth, used as marshalling fuel. -/
def jdepth : Json → Nat
  | .arr xs => jdepthList xs + 1
  | .obj fs => jdepthFields fs + 1
  | _ => 1

def jdepthList : List Json → Nat
  | [] => 0
  | x :: xs => max (jdepth x) (jdepthList xs)

def jdepthFields : List (ByteStr × Json) → Nat
  | [] => 0
  | (_, v) :: fs => max (jdepth v) (jdepthFields fs)

end

def quoteStr (s : ByteStr) : ByteStr := [34] ++ (s.map escByte).flatten ++ [34]

def jsonMarshalAux : Nat → Json → ByteStr
  | _, .null => bstr "null"
  | _, .bool b => if b then bstr "true" else bstr "false"
  | _, .num q => qDec q
  | _, .str s => quoteStr s
  | 0, _ => []
  | fuel + 1, .arr xs =>
      let rec elems : List Json → ByteStr
        | [] => []
        | [x] => jsonMarshalAux fuel x
        | x :: y :: ys => jsonMarshalAux fuel x ++ [44] ++ elems (y :: ys)
      [91] ++ elems xs ++ [93]
  | fuel + 1, .obj fs =>
      let rec flds : List (ByteStr × Json) → ByteStr
        | [] => []
        | [(k, v)] => quoteStr k ++ [58] ++ jsonMarshalAux fuel v
        | (k, v) :: g :: gs =>
            quoteStr k ++ [58] ++ jsonMarshalAux fuel v ++ [44] ++ flds (g :: gs)
      [123] ++ flds (sortFields (objPairs fs)) ++ [125]

def jsonMarshal (v : Json) : ByteStr := jsonMarshalAux (jdepth v) v

/-! ## The Redis store model

The backing store is a finite association from key names to typed entries;
we record an optional expiry (remaining seconds) alongside each value.
Redis primitives used by the Go handlers are modelled as commands acting on
this store; a command application returns `none` exactly when Redis would
reply with an error (e.g. `WRONGTYPE`). -/

inductive RVal where
  | rstr (s : ByteStr)
  | rlist (xs : List ByteStr)
  | rset (xs : List ByteStr)
  | rhash (fs : List (ByteStr × ByteStr))
  | rzset (ms : List (Q × ByteStr))
deriving DecidableEq, Repr

structure REntry where
  val : RVal
  expiry : Option Nat
deriving DecidableEq, Repr

abbrev Store := List (String × REntry)

def stLookup (st : Store) (k : String) : Option REntry :=
  (st.find? (fun e => e.1 == k)).map (fun e => e.2)

def stErase (st : Store) (k : String) : Store := st.filter (fun e => !(e.1 == k))

def stPut : Store → String → REntry → Store
  | [], k, e => [(k, e)]
  | x :: st, k, e => if x.1 = k then (k, e) :: st else x :: stPut st k e

/-- Store commands the `setKey` / `deleteKey` handlers can issue. -/
inductive Cmd where
  | setCmd (key : String) (v : ByteStr) (ttlSec : Nat)
  | delCmd (key : String)
  | rpushCmd (key : String) (v : ByteStr)
  | saddCmd (key : String) (v : ByteStr)
  | hsetCmd (key : String) (f : ByteStr) (v : ByteStr)
  | zaddCmd (key : String) (score : Q) (m : ByteStr)
  | expireCmd (key : String) (ttlSec : Nat)
deriving DecidableEq, Repr

def applyCmd (st : Store) : Cmd → Option Store
  | .setCmd k v ttl =>
      some (stPut st k ⟨.rstr v, if 0 < ttl then some ttl else none⟩)
  | .delCmd k => some (stErase st k)
  | .rpushCmd k v =>
      match stLookup st k with
      | none => some (stPut st k ⟨.rlist [v], none⟩)
      | some ⟨.rlist xs, e⟩ => some (stPut st k ⟨.rlist (xs ++ [v]), e⟩)
      | some _ => none
  | .saddCmd k v =>
      match stLookup st k with
      | none => some (stPut st k ⟨.rset [v], none⟩)
      | some ⟨.rset xs, e⟩ =>
          some (stPut st k ⟨.rset (if xs.contains v then xs else xs ++ [v]), e⟩)
      | some _ => none
  | .hsetCmd k f v =>
      match stLookup st k with
      | none => some (stPut st k ⟨.rhash [(f, v)], none⟩)
      | some ⟨.rhash fs, e⟩ =>
          let fs2 :=
            if (fs.find? (fun p => p.1 == f)).isSome
            then fs.map (fun p => if p.1 == f then (f, v) else p)
            else fs ++ [(f, v)]
          some (stPut st k ⟨.rhash fs2, e⟩)
      | some _ => none
  | .zaddCmd k sc m =>
      match stLookup st k with
      | none => some (stPut st k ⟨.rzset [(sc, m)], none⟩)
      | some ⟨.rzset ms, e⟩ =>
          let ms2 :=
            if (ms.find? (fun p => p.2 == m)).isSome
            then ms.map (fun p => if p.2 == m then (sc, m) else p)
            else ms ++ [(sc, m)]
          some (stPut st k ⟨.rzset ms2, e⟩)
      | some _ => none
  | .expireCmd k ttl =>
      match stLookup st k with
      | none => some st
      | some e => some (stPut st k ⟨e.val, if 0 < ttl then some ttl else e.expiry⟩)

/-! ## `setKey` (README.md lines 540-668)

The handler binds `\x7btype, value, ttl\x7d`, computes
`ttlSeconds = Duration(max(0, floor(ttl))) * Second`, dispatches on the
declared type and finally applies the TTL as a separate `EXPIRE` for
non-string types.  Collection branches start with an unchecked Go type
assertion on the wire value: a wrong shape panics (modelled as the
`panicked` outcome) before any further work in that branch. -/

inductive SetOut where
  | ok
  | badRequest
  | serverError
  | panicked
deriving DecidableEq, Repr

/-- go-redis `writeArg` conversion of an `interface\x7b\x7d` argument:
strings pass through, numbers are formatted, booleans become `1`/`0`,
`nil` becomes the empty string, and composite values are a client-side
marshalling error (`none`). -/
def argToString : Json → Option ByteStr
  | .str s => some s
  | .num q => some (qDec q)
  | .bool b => some (if b then bstr "1" else bstr "0")
  | .null => some []
  | .arr _ => none
  | .obj _ => none

inductive LoopRes where
  | allOk
  | errStop
  | panicStop
deriving DecidableEq, Repr

/-- One `for ... \x7b err = client.X(...).Err(); if err != nil \x7b break \x7d \x7d`
loop: convert each element, issue the command, stop at the first error. -/
def itemsLoop (mk : Json → Option Cmd) : Store → List Cmd → List Json →
    Store × List Cmd × LoopRes
  | st, trace, [] => (st, trace, .allOk)
  | st, trace, x :: xs =>
      match mk x with
      | none => (st, trace, .errStop)
      | some c =>
          match applyCmd st c with
          | some st2 => itemsLoop mk st2 (trace ++ [c]) xs
          | none => (st, trace ++ [c], .errStop)

/-- The zset loop additionally asserts each element's shape:
`v.(map[string]interface\x7b\x7d)` and `item["score"].(float64)` panic on
mismatch; a missing member is Go `nil` and is written as an empty string. -/
def zsetLoop (key : String) : Store → List Cmd → List Json →
    Store × List Cmd × LoopRes
  | st, trace, [] => (st, trace, .allOk)
  | st, trace, x :: xs =>
      match x with
      | .obj fs =>
          match objGet fs (bstr "score") with
          | some (.num sc) =>
              let memArg :=
                match objGet fs (bstr "member") with
                | none => some ([] : ByteStr)
                | some m => argToString m
              match memArg with
              | none => (st, trace, .errStop)
              | some mb =>
                  match applyCmd st (.zaddCmd key sc mb) with
                  | some st2 => zsetLoop key st2 (trace ++ [.zaddCmd key sc mb]) xs
                  | none => (st, trace ++ [.zaddCmd key sc mb], .errStop)
          | _ => (st, trace, .panicStop)
      | _ => (st, trace, .panicStop)

/-- Result of the type-dispatch `switch` in `setKey`:
either `err == nil` and control reaches the TTL step, or the handler has
already responded (or panicked). -/
inductive SwitchRes where
  | proceed (st : Store) (trace : List Cmd)
  | failed (o : SetOut) (st : Store) (trace : List Cmd)

/-- The per-field loop of the hash branch: `for k, v := range values`
(over the deduplicated map), `HSet(key, k, v)`, stop at the first error. -/
def hashLoop (key : String) : Store → List Cmd → List (ByteStr × Json) →
    Store × List Cmd × LoopRes
  | st, trace, [] => (st, trace, .allOk)
  | st, trace, (f, v) :: fs =>
      match argToString v with
      | none => (st, trace, .errStop)
      | some vb =>
          match applyCmd st (.hsetCmd key f vb) with
          | some st2 => hashLoop key st2 (trace ++ [.hsetCmd key f vb]) fs
          | none => (st, trace ++ [.hsetCmd key f vb], .errStop)

def loopFinish : Store × List Cmd × LoopRes → SwitchRes
  | (st2, tr2, .allOk) => .proceed st2 tr2
  | (st2, tr2, .errStop) => .failed .serverError st2 tr2
  | (st2, tr2, .panicStop) => .failed .panicked st2 tr2

def setKeySwitch (st : Store) (key : String) (ty : String) (v : Json)
    (ttlSec : Nat) : SwitchRes :=
  match ty with
  | "string" =>
      let strValue : ByteStr :=
        match v with
        | .str s => s
        | other => jsonMarshal other
      match applyCmd st (.setCmd key strValue ttlSec) with
      | some st2 => .proceed st2 [.setCmd key strValue ttlSec]
      | none => .failed .serverError st [.setCmd key strValue ttlSec]
  | "list" =>
      match v with
      | .arr xs =>
          match applyCmd st (.delCmd key) with
          | some st1 =>
              loopFinish (itemsLoop
                (fun x => (argToString x).map (Cmd.rpushCmd key)) st1 [.delCmd key] xs)
          | none => .failed .serverError st [.delCmd key]
      | _ => .failed .panicked st []
  | "set" =>
      match v with
      | .arr xs =>
          match applyCmd st (.delCmd key) with
          | some st1 =>
              loopFinish (itemsLoop
                (fun x => (argToString x).map (Cmd.saddCmd key)) st1 [.delCmd key] xs)
          | none => .failed .serverError st [.delCmd key]
      | _ => .failed .panicked st []
  | "hash" =>
      match v with
      | .obj fs =>
          match applyCmd st (.delCmd key) with
          | some st1 =>
              loopFinish (hashLoop key st1 [.delCmd key] (objPairs fs))
          | none => .failed .serverError st [.delCmd key]
      | _ => .failed .panicked st []
  | "zset" =>
      match v with
      | .arr xs =>
          match applyCmd st (.delCmd key) with
          | some st1 => loopFinish (zsetLoop key st1 [.delCmd key] xs)
          | none => .failed .serverError st [.delCmd key]
      | _ => .failed .panicked st []
  | _ => .failed .badRequest st []

/-- The code after the `switch`: report a failure, or run the separate TTL
step, which the Go code guards with `data.Type != "string" && ttlSeconds > 0`. -/
def ttlStep (key : String) (ttlSec : Nat) (ty : String) :
    SwitchRes → SetOut × Store × List Cmd
  | .failed o st2 tr => (o, st2, tr)
  | .proceed st2 tr =>
      if ty ≠ "string" ∧ 0 < ttlSec then
        match applyCmd st2 (.expireCmd key ttlSec) with
        | some st3 => (.ok, st3, tr ++ [.expireCmd key ttlSec])
        | none => (.serverError, st2, tr ++ [.expireCmd key ttlSec])
      else (.ok, st2, tr)

/-- Embeds `setKey`: type switch, then the separate TTL step. -/
def setKeyGo (st : Store) (key : String) (ty : String) (v : Json) (ttlReq : Q) :
    SetOut × Store × List Cmd :=
  let ttlSec : Nat := (max 0 (qfloor ttlReq)).toNat
  ttlStep key ttlSec ty (setKeySwitch st key ty v ttlSec)

/-! ## `getKey` (README.md lines 375-528)

The handler reads the key's Redis type and dispatches; every scalar the
store returns (the bare string, each list element, set member, hash field
value, sorted-set member) goes through the same inline logic: try
`json.Unmarshal` first, otherwise wrap as a base64 blob if `isBinary`,
otherwise pass the text through.  The Go code repeats this logic in each
branch; the embedding mirrors that. -/

/-- The `\x7b"type": "binary", "data": base64\x7d` wrapper `getKey` builds
for a non-JSON, non-text scalar. -/
def blobJson (s : ByteStr) : Json :=
  Json.obj [(bstr "type", .str (bstr "binary")), (bstr "data", .str (b64encode s))]

/-- The per-scalar decode rule, written once for the statements below. -/
def decodeScalar (s : ByteStr) : Json :=
  match jsonParse s with
  | some j => j
  | none => if isBinary s then blobJson s else .str s

/-- Ascending (score, then member bytes) order of `ZRangeWithScores`. -/
def zleP (a b : Q × ByteStr) : Bool :=
  if a.1 = b.1 then byteLe a.2 b.2 else qle a.1 b.1

def zinsert (x : Q × ByteStr) : List (Q × ByteStr) → List (Q × ByteStr)
  | [] => [x]
  | y :: ys => if zleP x y then x :: y :: ys else y :: zinsert x ys

def zsorted (ms : List (Q × ByteStr)) : List (Q × ByteStr) := ms.foldr zinsert []

/-- The Redis `TYPE` reply for a key (`"none"` when absent). -/
def rtype (st : Store) (k : String) : String :=
  match stLookup st k with
  | none => "none"
  | some e =>
      match e.val with
      | .rstr _ => "string"
      | .rlist _ => "list"
      | .rset _ => "set"
      | .rhash _ => "hash"
      | .rzset _ => "zset"

inductive GetOut where
  | found (ty : String) (value : Json)
  | badRequest

/-- Embeds `getKey`.  The store primitives (`GET`, `LRANGE 0 -1`,
`SMEMBERS`, `HGETALL`, `ZRangeWithScores 0 -1`) are modelled as reads of
the entry; their network-error branches are not modelled.  A key whose
`TYPE` is not one of the five variants (in particular `"none"` for an
absent key) hits the `default` branch: 400 "Unsupported key type". -/
def getKeyGo (st : Store) (key : String) : GetOut :=
  match stLookup st key with
  | some ⟨.rstr s, _⟩ =>
      .found "string"
        (match jsonParse s with
         | some j => j
         | none => if isBinary s then blobJson s else .str s)
  | some ⟨.rlist xs, _⟩ =>
      .found "list" (.arr (xs.map (fun item =>
        match jsonParse item with
        | some j => j
        | none => if isBinary item then blobJson item else .str item)))
  | some ⟨.rset xs, _⟩ =>
      .found "set" (.arr (xs.map (fun item =>
        match jsonParse item with
        | some j => j
        | none => if isBinary item then blobJson item else .str item)))
  | some ⟨.rhash fs, _⟩ =>
      .found "hash" (.obj (fs.map (fun p =>
        (p.1,
         match jsonParse p.2 with
         | some j => j
         | none => if isBinary p.2 then blobJson p.2 else .str p.2))))
  | some ⟨.rzset ms, _⟩ =>
      .found "zset" (.arr ((zsorted ms).map (fun zm =>
        match jsonParse zm.2 with
        | some j => .obj [(bstr "score", .num zm.1), (bstr "member", j)]
        | none =>
            if isBinary zm.2 then
              .obj [(bstr "score", .num zm.1), (bstr "member", blobJson zm.2)]
            else
              .obj [(bstr "score", .num zm.1), (bstr "member", .str zm.2)])))
  | none => .badRequest

/-! ## `listKeys` (README.md lines 329-373)

The handler runs `client.Keys(c, "*")` — a full `KEYS *` listing — and for
each key fetches `TTL` and `TYPE`.  The lookups can fail (connection
errors), which we model with result oracles; on a healthy connection the
oracles return the go-redis replies.  go-redis converts the raw `TTL`
integer reply to a `time.Duration`, keeping the sentinels `-1`/`-2` as raw
(nanosecond) values and scaling genuine TTLs by `time.Second`; the handler
then reports `ttl.Seconds()`. -/

structure KeyMeta where
  key : String
  ttl : Q
  ty : String
deriving DecidableEq, Repr

/-- `Duration.Seconds()` of `d` nanoseconds, exactly:
`float64(d / 1e9) + float64(d % 1e9) / 1e9` with Go's truncating
integer division. -/
def durSeconds (d : Int) : Q :=
  qadd (qint (d.tdiv 1000000000)) (qnorm (d.tmod 1000000000) 1000000000)

/-- The `time.Duration` go-redis returns for `TTL key` on a healthy
connection: `-1`/`-2` sentinels stay raw, real TTLs are scaled to
nanoseconds. -/
def ttlDurOf (e : REntry) : Int :=
  match e.expiry with
  | none => -1
  | some t => (t : Int) * 1000000000

def healthyTtl (st : Store) (k : String) : Except Unit Int :=
  match stLookup st k with
  | none => .ok (-2)
  | some e => .ok (ttlDurOf e)

def healthyTy (st : Store) (k : String) : Except Unit String := .ok (rtype st k)

/-- Embeds `listKeys`: `KEYS *` enumerates every key of the selected
database in one call; per key, a failed TTL lookup substitutes the
duration `-2` (nanoseconds) and a failed type lookup substitutes
`"unknown"`, and the loop continues; the reported `ttl` field is
`ttl.Seconds()`. -/
def listKeysGo (st : Store) (ttlRes : String → Except Unit Int)
    (tyRes : String → Except Unit String) : List KeyMeta :=
  (st.map Prod.fst).map (fun k =>
    let ttlDur : Int :=
      match ttlRes k with
      | .ok d => d
      | .error _ => -2
    let kty : String :=
      match tyRes k with
      | .ok t => t
      | .error _ => "unknown"
    ⟨k, durSeconds ttlDur, kty⟩)

/-! ## `deleteKey` (README.md lines 670-692)

After the database select, the handler runs `client.Del(c, key)` and
returns 200 unless the command itself errors.  Redis `DEL` on an absent
key replies with a count of 0 and no error, so on a healthy connection the
handler always reports success. -/

def deleteKeyGo (st : Store) (k : String) : SetOut × Store :=
  (.ok, stErase st k)

/-! ## The namespace tree builder (`buildTree`, src/unnamed/part_000 lines 498-579)

The frontend splits each descriptor name on `:` and walks the segment
list, creating one node per path prefix in a `Map` keyed by the joined
path (insertion order preserved; an existing node is never updated).  A
second pass attaches every path of two or more segments to its parent
node, and `countKeys` computes the per-folder aggregate: 1 for a node
marked leaf, otherwise the sum over its children.  Since every stored
segment is `:`-free, we key nodes by segment lists directly instead of by
the re-split joined string, which is the same map. -/

abbrev Seg := List Char

abbrev TPath := List Seg

/-- JavaScript `string.split(':')` on the character list. -/
def splitColon : List Char → List Seg
  | [] => [[]]
  | c :: rest =>
      match splitColon rest with
      | [] => [[]]
      | p :: ps => if c = ':' then [] :: p :: ps else (c :: p) :: ps

def keyParts (k : String) : TPath := splitColon k.data

structure NodeInfo where
  leaf : Bool
  ty : String
  ttl : Q
deriving DecidableEq, Repr

instance : Inhabited NodeInfo := ⟨⟨false, "", ⟨0, 1⟩⟩⟩

abbrev NodeMap := List (TPath × NodeInfo)

def pathFind (m : NodeMap) (p : TPath) : Option NodeInfo :=
  (m.find? (fun e => e.1 == p)).map (fun e => e.2)

/-- The node record created for the `(i+1)`-segment prefix of a
descriptor's segments: leaf data when this prefix is the whole name
(`index === parts.length - 1`), folder data otherwise. -/
def mkNodeInfo (k : KeyMeta) (parts : TPath) (i : Nat) : NodeInfo :=
  { leaf := i + 1 = parts.length,
    ty := if i + 1 = parts.length then k.ty else "folder",
    ttl := if i + 1 = parts.length then k.ttl else qint (-1) }

/-- One step of the first pass: node for the `(i+1)`-segment prefix is
created if absent (`if (!nodeMap.has(currentPath))`), never updated. -/
def insNode (k : KeyMeta) (parts : TPath) (m : NodeMap) (i : Nat) : NodeMap :=
  let path := parts.take (i + 1)
  if (pathFind m path).isSome then m
  else m ++ [(path, mkNodeInfo k parts i)]

/-- First pass for one descriptor (`keys.forEach`); descriptors with an
empty name are skipped (`if (!key || !key.key) return`). -/
def insertKeyPaths (m : NodeMap) (k : KeyMeta) : NodeMap :=
  if k.key = "" then m
  else (List.range (keyParts k.key).length).foldl (insNode k (keyParts k.key)) m

def buildMapGo (ks : List KeyMeta) : NodeMap := ks.foldl insertKeyPaths []

/-- Second pass: single-segment paths become roots, in map order. -/
def rootPaths (m : NodeMap) : List TPath :=
  (m.map Prod.fst).filter (fun q => q.length == 1)

/-- Second pass: paths of two or more segments are pushed onto the
children of the node at their parent path, in map order. -/
def childPaths (m : NodeMap) (p : TPath) : List TPath :=
  (m.map Prod.fst).filter (fun q => 2 ≤ q.length && q.dropLast == p)

def isLeafPath (m : NodeMap) (q : TPath) : Bool :=
  match pathFind m q with
  | some info => info.leaf
  | none => false

/-- `countKeys` from the title pass: a leaf counts 1 (its children are
ignored), a folder sums over its children.  Children are one segment
longer than their parent, so a fuel of `mapDepth + 1` never runs out. -/
def countKeysAux (m : NodeMap) : Nat → TPath → Nat
  | 0, _ => 0
  | fuel + 1, p =>
      if isLeafPath m p then 1
      else ((childPaths m p).map (countKeysAux m fuel)).sum

def mapDepth (m : NodeMap) : Nat := (m.map (fun e => e.1.length)).foldr max 0

def countKeys (m : NodeMap) (p : TPath) : Nat := countKeysAux m (mapDepth m + 1) p

/-- Sum of the per-root aggregate counts for a descriptor batch. -/
def treeKeyCountSum (ks : List KeyMeta) : Nat :=
  ((rootPaths (buildMapGo ks)).map (countKeys (buildMapGo ks))).sum

/-- The segment list of a descriptor's name. -/
def kparts (k : KeyMeta) : TPath := keyParts k.key

/-- The paths present in the node map, in insertion order. -/
def domPaths (m : NodeMap) : List TPath := m.map Prod.fst

/-- Leaf paths of the map that extend `p` (including `p` itself). -/
def leafExtsOf (m : NodeMap) (p : TPath) : List TPath :=
  (domPaths m).filter (fun r => isLeafPath m r && r.take p.length == p)

/-- All leaf paths of the map. -/
def leafPathsOf (m : NodeMap) : List TPath :=
  (domPaths m).filter (fun r => isLeafPath m r)

/-! ## Reference definitions used in the statements below -/

/-- The string the `setKey` string branch writes: a string wire value is
used verbatim, anything else is `json.Marshal`ed. -/
def strValueOf : Json → ByteStr
  | .str s => s
  | other => jsonMarshal other

/-- The handler's `ttlSeconds`, in seconds: `max(0, floor(ttl))`. -/
def ttlSecOf (q : Q) : Nat := (max 0 (qfloor q)).toNat

/-- Expiry recorded by `SET key value EX ttl` (and by a later `EXPIRE`). -/
def expiryOf (q : Q) : Option Nat :=
  if 0 < ttlSecOf q then some (ttlSecOf q) else none

/-- Executes the first `n` commands of a trace (a command that fails, and
everything after it, leaves the store as it was). -/
def execNCmds : Store → List Cmd → Nat → Store
  | st, _, 0 => st
  | st, [], _ + 1 => st
  | st, c :: cs, n + 1 =>
      match applyCmd st c with
      | some st2 => execNCmds st2 cs n
      | none => st

def isArrJ : Json → Bool
  | .arr _ => true
  | _ => false

def isObjJ : Json → Bool
  | .obj _ => true
  | _ => false

/-- A sorted-set element whose shape makes the zset branch panic: not an
object, or without a `float64` under `"score"`. -/
def zElemBad : Json → Bool
  | .obj fs =>
      match objGet fs (bstr "score") with
      | some (.num _) => false
      | _ => true
  | _ => true

/-- A sorted-set element the zset loop can push without error: an object
with a `float64` score whose member converts to a Redis argument. -/
def zElemPushable : Json → Bool
  | .obj fs =>
      match objGet fs (bstr "score") with
      | some (.num _) =>
          match objGet fs (bstr "member") with
          | none => true
          | some m => (argToString m).isSome
      | _ => false
  | _ => false

def isExpireCmd : Cmd → Bool
  | .expireCmd _ _ => true
  | _ => false

/-! ## Concrete inputs used by counterexamples and witnesses -/

/-- `"1\n"`: its byte 0x0A is in the claimed binary range, yet the bytes
parse as the JSON number 1. -/
def c2Bytes : ByteStr := [49, 10]

def c3Store : Store := [("z", ⟨.rzset [(⟨1, 1⟩, bstr "old")], none⟩)]

/-- A zset payload whose only element lacks a `"score"` field. -/
def c3BadPayload : Json := .arr [.obj [(bstr "member", .str (bstr "a"))]]

def c4Store : Store := [("a", ⟨.rstr [], some 7⟩), ("b", ⟨.rstr [], some 5⟩)]

def c4TtlRes (k : String) : Except Unit Int :=
  if k = "a" then .error () else healthyTtl c4Store k

def c4TyRes (k : String) : Except Unit String :=
  if k = "a" then .error () else healthyTy c4Store k

/-- The exact key `"a"` followed by a key it is a colon-prefix of. -/
def c7Batch : List KeyMeta := [⟨"a", ⟨10, 1⟩, "string"⟩, ⟨"a:b", ⟨20, 1⟩, "string"⟩]

/-- The same two descriptors, extension first. -/
def c8Batch : List KeyMeta := [⟨"a:b", ⟨20, 1⟩, "string"⟩, ⟨"a", ⟨10, 1⟩, "string"⟩]

/-- The spec's own tree example: keys `a:b`, `a:c`, `d`. -/
def specTreeBatch : List KeyMeta :=
  [⟨"a:b", ⟨-1, 1⟩, "string"⟩, ⟨"a:c", ⟨-1, 1⟩, "string"⟩, ⟨"d", ⟨-1, 1⟩, "list"⟩]

/-! ## Supporting lemmas about the store model -/

theorem b64Val_b64Char : ∀ i < 64, b64Val (b64Char i) = some i := by decide

theorem b64Char_ne_pad (i : Nat) (h : i < 64) : b64Char i ≠ 61 := by
  revert h; revert i; decide

/-- Base64 decoding is a left inverse of encoding on genuine byte strings. -/
theorem b64_roundtrip : ∀ v : ByteStr, (∀ b ∈ v, b < 256) →
    b64decode (b64encode v) = some v := by
  intro v
  induction v using b64encode.induct with
  | case1 => intro _; decide
  | case2 a =>
      intro h
      have ha : a < 256 := h a (by simp)
      have h1 : a / 4 < 64 := by omega
      have h2 : a % 4 * 16 < 64 := by omega
      have e1 := b64Val_b64Char _ h1
      have e2 := b64Val_b64Char _ h2
      simp only [b64encode, b64decode, e1, e2, if_pos, and_true, eq_self_iff_true,
        Option.some.injEq, List.cons.injEq]
      omega
  | case3 a b =>
      intro h
      have ha : a < 256 := h a (by simp)
      have hb : b < 256 := h b (by simp)
      have h1 : a / 4 < 64 := by omega
      have h2 : a % 4 * 16 + b / 16 < 64 := by omega
      have h3 : b % 16 * 4 < 64 := by omega
      have e1 := b64Val_b64Char _ h1
      have e2 := b64Val_b64Char _ h2
      have e3 := b64Val_b64Char _ h3
      have p3 := b64Char_ne_pad _ h3
      simp only [b64encode, b64decode, e1, e2, e3, p3, false_and, if_false, if_true,
        and_true, true_and, and_self, eq_self_iff_true, if_pos, Option.some.injEq,
        List.cons.injEq, and_true, List.nil_eq]
      omega
  | case4 a b c rest ih =>
      intro h
      have ha : a < 256 := h a (by simp)
      have hb : b < 256 := h b (by simp)
      have hc : c < 256 := h c (by simp)
      have hrest : ∀ x ∈ rest, x < 256 := by
        intro x hx
        exact h x (by simp [hx])
      have h1 : a / 4 < 64 := by omega
      have h2 : a % 4 * 16 + b / 16 < 64 := by omega
      have h3 : b % 16 * 4 + c / 64 < 64 := by omega
      have h4 : c % 64 < 64 := by omega
      have e1 := b64Val_b64Char _ h1
      have e2 := b64Val_b64Char _ h2
      have e3 := b64Val_b64Char _ h3
      have e4 := b64Val_b64Char _ h4
      have p3 := b64Char_ne_pad _ h3
      have p4 := b64Char_ne_pad _ h4
      simp only [b64encode, b64decode, e1, e2, e3, e4, p3, p4, false_and, if_false,
        ih hrest, Option.some.injEq, List.cons.injEq, and_true, eq_self_iff_true,
        true_and]
      omega


theorem stLookup_nil (k : String) : stLookup [] k = none := rfl

theorem stLookup_cons (x : String × REntry) (st : Store) (k : String) :
    stLookup (x :: st) k = if x.1 = k then some x.2 else stLookup st k := by
  by_cases h : x.1 = k <;> simp [stLookup, List.find?_cons, h]

theorem stLookup_stPut (st : Store) (k : String) (e : REntry) :
    stLookup (stPut st k e) k = some e := by
  induction st with
  | nil => simp [stPut, stLookup_cons, stLookup_nil]
  | cons x st ih =>
      by_cases h : x.1 = k
      · simp [stPut, h, stLookup_cons]
      · simp [stPut, h, stLookup_cons, ih]

theorem stLookup_stPut_ne (st : Store) (k k2 : String) (e : REntry) (h : k2 ≠ k) :
    stLookup (stPut st k e) k2 = stLookup st k2 := by
  induction st with
  | nil => simp [stPut, stLookup_cons, stLookup_nil, (Ne.symm h : ¬k = k2)]
  | cons x st ih =>
      by_cases hx : x.1 = k
      · simp [stPut, hx, stLookup_cons, (Ne.symm h : ¬k = k2)]
      · simp [stPut, hx, stLookup_cons, ih]

theorem stLookup_stErase_self (st : Store) (k : String) :
    stLookup (stErase st k) k = none := by
  induction st with
  | nil => simp [stErase, stLookup_nil]
  | cons x st ih =>
      by_cases h : x.1 = k
      · simpa [stErase, List.filter_cons, h] using ih
      · simpa [stErase, List.filter_cons, h, stLookup_cons] using ih

theorem stErase_absent (st : Store) (k : String) (h : stLookup st k = none) :
    stErase st k = st := by
  induction st with
  | nil => simp [stErase]
  | cons x st ih =>
      rw [stLookup_cons] at h
      by_cases hx : x.1 = k
      · simp [hx] at h
      · rw [if_neg hx] at h
        have hpx : (!(x.1 == k)) = true := by simp [hx]
        simp only [stErase, List.filter_cons, hpx, if_true]
        exact congrArg (fun l => x :: l) (ih h)

/-- `isBinary` is false exactly when every byte is printable ASCII. -/
theorem isBinary_eq_false_iff (s : ByteStr) :
    isBinary s = false ↔ ∀ b ∈ s, 32 ≤ b ∧ b ≤ 126 := by
  induction s with
  | nil => simp [isBinary]
  | cons a s ih =>
      simp only [isBinary, List.any_cons] at ih ⊢
      rw [Bool.or_eq_false_iff]
      simp only [List.mem_cons, Bool.or_eq_false_iff, decide_eq_false_iff_not, not_lt, ih]
      constructor
      · rintro ⟨⟨h1, h2⟩, h3⟩ b hb
        rcases hb with rfl | hb
        · omega
        · exact h3 b hb
      · intro h
        refine ⟨⟨?_, ?_⟩, fun b hb => h b (Or.inr hb)⟩ <;>
          have := h a (Or.inl rfl) <;> omega

theorem isBinary_eq_true_iff (s : ByteStr) :
    isBinary s = true ↔ ∃ b ∈ s, b < 32 ∨ 126 < b := by
  simp only [isBinary, List.any_eq_true, Bool.or_eq_true, decide_eq_true_eq]

/-! ## Trace lemmas: the element loops only append commands -/

theorem itemsLoop_trace (mk : Json → Option Cmd) (st : Store) (tr : List Cmd)
    (xs : List Json) : ∃ ext, (itemsLoop mk st tr xs).2.1 = tr ++ ext := by
  induction xs generalizing st tr with
  | nil => exact ⟨[], by simp [itemsLoop]⟩
  | cons x xs ih =>
      simp only [itemsLoop]
      match hmk : mk x with
      | none => exact ⟨[], by simp⟩
      | some c =>
          match hap : applyCmd st c with
          | some st2 =>
              obtain ⟨ext, hext⟩ := ih st2 (tr ++ [c])
              exact ⟨[c] ++ ext, by simp [hap, hext]⟩
          | none => exact ⟨[c], by simp [hap]⟩

theorem hashLoop_trace (key : String) (st : Store) (tr : List Cmd)
    (fs : List (ByteStr × Json)) : ∃ ext, (hashLoop key st tr fs).2.1 = tr ++ ext := by
  induction fs generalizing st tr with
  | nil => exact ⟨[], by simp [hashLoop]⟩
  | cons f fs ih =>
      obtain ⟨fk, fv⟩ := f
      simp only [hashLoop]
      match hmk : argToString fv with
      | none => exact ⟨[], by simp⟩
      | some vb =>
          match hap : applyCmd st (.hsetCmd key fk vb) with
          | some st2 =>
              obtain ⟨ext, hext⟩ := ih st2 (tr ++ [.hsetCmd key fk vb])
              exact ⟨[.hsetCmd key fk vb] ++ ext, by simp [hap, hext]⟩
          | none => exact ⟨[.hsetCmd key fk vb], by simp [hap]⟩

theorem zsetLoop_trace (key : String) (st : Store) (tr : List Cmd)
    (xs : List Json) : ∃ ext, (zsetLoop key st tr xs).2.1 = tr ++ ext := by
  induction xs generalizing st tr with
  | nil => exact ⟨[], by simp [zsetLoop]⟩
  | cons x xs ih =>
      simp only [zsetLoop]
      match x with
      | .null | .bool _ | .num _ | .str _ | .arr _ => exact ⟨[], by simp⟩
      | .obj fs =>
          match hsc : objGet fs (bstr "score") with
          | none => exact ⟨[], by simp [hsc]⟩
          | some .null | some (.bool _) | some (.str _) | some (.arr _) | some (.obj _) =>
              exact ⟨[], by simp [hsc]⟩
          | some (.num sc) =>
              simp only [hsc]
              match hm : (match objGet fs (bstr "member") with
                          | none => some ([] : ByteStr)
                          | some m => argToString m) with
              | none => exact ⟨[], by simp [hm]⟩
              | some mb =>
                  simp only [hm]
                  match hap : applyCmd st (.zaddCmd key sc mb) with
                  | some st2 =>
                      obtain ⟨ext, hext⟩ := ih st2 (tr ++ [.zaddCmd key sc mb])
                      exact ⟨[.zaddCmd key sc mb] ++ ext, by simp [hap, hext]⟩
                  | none => exact ⟨[.zaddCmd key sc mb], by simp [hap]⟩

/-! ## Claim C1 -/

/-- C1: the key-listing handler never iterates incrementally: `listKeys`
issues `KEYS *` and every single call enumerates the entire keyspace — the
returned batch is exactly all keys of the store, its size grows with the
total key count, and the response carries no resumption cursor (the
embedding has no cursor or batch-size input at all, because the handler
reads none).  This refutes the claim that each call is a cursor-driven
SCAN step of bounded cost. -/
theorem c1_listKeys_enumerates_whole_keyspace (st : Store)
    (ttlRes : String → Except Unit Int) (tyRes : String → Except Unit String) :
    (listKeysGo st ttlRes tyRes).map (fun m => m.key) = st.map Prod.fst ∧
    (listKeysGo st ttlRes tyRes).length = st.length := by
  constructor
  · simp [listKeysGo]
  · simp [listKeysGo]

/-! ## Claim C4 -/

/-- C4: a failed TTL lookup does not abort the batch — the key stays in
the batch and a failed type lookup yields `"unknown"` — but the TTL
reported for it is `Duration(-2).Seconds() = -2e-9` (the handler assigns
the untyped constant `-2` to a `time.Duration`, i.e. -2 nanoseconds),
not the sentinel `-2` seconds the claim states. -/
theorem c4_batch_survives_but_ttl_sentinel_mis_scaled :
    listKeysGo c4Store c4TtlRes c4TyRes =
      [⟨"a", ⟨-1, 500000000⟩, "unknown"⟩, ⟨"b", ⟨5, 1⟩, "string"⟩] ∧
    (⟨-1, 500000000⟩ : Q) ≠ qint (-2) :=
  ⟨by rfl, by decide⟩

/-! ## Claim C9 -/

/-- C9: deleting an absent key reports success and leaves the store
unchanged (`DEL` on a missing key replies 0 with no error). -/
theorem c9_deleteKey_absent_reports_success (st : Store) (k : String)
    (h : stLookup st k = none) :
    deleteKeyGo st k = (.ok, st) := by
  simp [deleteKeyGo, stErase_absent st k h]

/-- C9 witness: deleting `"y"` from a store that only holds `"x"`. -/
theorem c9_deleteKey_absent_reports_success_witness :
    stLookup [("x", (⟨.rstr [], none⟩ : REntry))] "y" = none ∧
    deleteKeyGo [("x", (⟨.rstr [], none⟩ : REntry))] "y" =
      (.ok, [("x", (⟨.rstr [], none⟩ : REntry))]) :=
  ⟨by rfl, c9_deleteKey_absent_reports_success _ "y" (by rfl)⟩

/-! ## Claim C2 -/

/-- Reading a just-written string entry dispatches to the string branch. -/
theorem getKeyGo_rstr (st : Store) (key : String) (s : ByteStr) (e : Option Nat)
    (h : stLookup st key = some ⟨.rstr s, e⟩) :
    getKeyGo st key =
      .found "string"
        (match jsonParse s with
         | some j => j
         | none => if isBinary s then blobJson s else .str s) := by
  simp only [getKeyGo, h]

/-- C2 counterexample: the scalar `"1\n"` contains the byte 0x0A from
the claimed binary range, yet setting it and fetching it returns the
parsed JSON number 1 — not a BinaryBlob — because `getKey` tries a JSON
parse before the binary check and `\n` is JSON whitespace. -/
theorem c2_counterexample :
    (∃ b ∈ c2Bytes, b < 32 ∨ 126 < b) ∧
    (setKeyGo [] "k" "string" (.str c2Bytes) ⟨0, 1⟩).1 = .ok ∧
    getKeyGo (setKeyGo [] "k" "string" (.str c2Bytes) ⟨0, 1⟩).2.1 "k" =
      .found "string" (.num ⟨1, 1⟩) ∧
    Json.num ⟨1, 1⟩ ≠ blobJson c2Bytes :=
  ⟨by decide, by rfl, by rfl, fun h => Json.noConfusion h⟩

/-- C2 amended: for a scalar with a byte in 0x00-0x1F or 0x7F-0xFF *that
does not parse as JSON*, set-then-fetch returns the BinaryBlob wrapper
and its base64 data decodes to exactly the original bytes. -/
theorem c2_amended_binary_scalar_roundtrip (st : Store) (key : String)
    (v : ByteStr) (q : Q) (hbytes : ∀ b ∈ v, b < 256)
    (hparse : jsonParse v = none) (hbin : ∃ b ∈ v, b < 32 ∨ 126 < b) :
    (setKeyGo st key "string" (.str v) q).1 = .ok ∧
    getKeyGo (setKeyGo st key "string" (.str v) q).2.1 key =
      .found "string" (blobJson v) ∧
    b64decode (b64encode v) = some v := by
  have hb : isBinary v = true := (isBinary_eq_true_iff v).mpr hbin
  have hst : (setKeyGo st key "string" (.str v) q).2.1 =
      stPut st key ⟨.rstr v, if 0 < ttlSecOf q then some (ttlSecOf q) else none⟩ := rfl
  refine ⟨rfl, ?_, b64_roundtrip v hbytes⟩
  rw [hst, getKeyGo_rstr _ key v _ (stLookup_stPut st key _), hparse, hb]
  simp

/-- C2 amended witness: the bytes 0xC3 0xA9 (UTF-8 `é`). -/
theorem c2_amended_binary_scalar_roundtrip_witness :
    jsonParse [195, 169] = none ∧
    (setKeyGo [] "k" "string" (.str [195, 169]) ⟨0, 1⟩).1 = .ok ∧
    getKeyGo (setKeyGo [] "k" "string" (.str [195, 169]) ⟨0, 1⟩).2.1 "k" =
      .found "string" (blobJson [195, 169]) ∧
    b64decode (b64encode [195, 169]) = some [195, 169] :=
  ⟨by rfl,
   (c2_amended_binary_scalar_roundtrip [] "k" [195, 169] ⟨0, 1⟩
      (by decide) (by rfl) (by decide)).1,
   (c2_amended_binary_scalar_roundtrip [] "k" [195, 169] ⟨0, 1⟩
      (by decide) (by rfl) (by decide)).2.1,
   (c2_amended_binary_scalar_roundtrip [] "k" [195, 169] ⟨0, 1⟩
      (by decide) (by rfl) (by decide)).2.2⟩

/-! ## Claim C6 -/

/-- Pointwise: the inline decode logic of each `getKey` branch is
`decodeScalar`. -/
theorem decodeScalar_parse (s : ByteStr) (j : Json) (h : jsonParse s = some j) :
    decodeScalar s = j := by
  simp [decodeScalar, h]

/-- C6: every scalar the store produces goes through JSON-parse-first
decoding: (i) a successful parse is embedded as parsed structure; (ii) on
parse failure the scalar passes through as plain text exactly when every
byte is printable ASCII `[32,126]`, (iii) and is wrapped as a base64
BinaryBlob otherwise; (iv) the rule is applied per element in every branch
(bare string, list element, set member, hash field value, sorted-set
member); and (v) `Decode("string", "42")` yields the JSON number 42, not
the string "42". -/
theorem c6_decode_json_first_per_scalar :
    (∀ s j, jsonParse s = some j → decodeScalar s = j) ∧
    (∀ s, jsonParse s = none →
      (decodeScalar s = .str s ↔ ∀ b ∈ s, 32 ≤ b ∧ b ≤ 126)) ∧
    (∀ s, jsonParse s = none → isBinary s = true → decodeScalar s = blobJson s) ∧
    (∀ st key s e, stLookup st key = some ⟨.rstr s, e⟩ →
      getKeyGo st key = .found "string" (decodeScalar s)) ∧
    (∀ st key xs e, stLookup st key = some ⟨.rlist xs, e⟩ →
      getKeyGo st key = .found "list" (.arr (xs.map decodeScalar))) ∧
    (∀ st key xs e, stLookup st key = some ⟨.rset xs, e⟩ →
      getKeyGo st key = .found "set" (.arr (xs.map decodeScalar))) ∧
    (∀ st key fs e, stLookup st key = some ⟨.rhash fs, e⟩ →
      getKeyGo st key = .found "hash" (.obj (fs.map (fun p => (p.1, decodeScalar p.2))))) ∧
    (∀ st key ms e, stLookup st key = some ⟨.rzset ms, e⟩ →
      getKeyGo st key = .found "zset" (.arr ((zsorted ms).map (fun zm =>
        .obj [(bstr "score", .num zm.1), (bstr "member", decodeScalar zm.2)])))) ∧
    getKeyGo [("k", ⟨.rstr (bstr "42"), none⟩)] "k" = .found "string" (.num ⟨42, 1⟩) := by
  refine ⟨decodeScalar_parse, ?_, ?_, ?_, ?_, ?_, ?_, ?_, by rfl⟩
  · intro s h
    simp only [decodeScalar, h]
    cases hb : isBinary s with
    | false =>
        simp only [hb, Bool.false_eq_true, if_false, true_iff]
        exact (isBinary_eq_false_iff s).mp hb
    | true =>
        simp only [hb, if_true]
        constructor
        · intro hcon
          exact absurd hcon.symm (fun hx => Json.noConfusion hx)
        · intro hall
          rw [(isBinary_eq_false_iff s).mpr hall] at hb
          exact Bool.noConfusion hb
  · intro s hp hb
    simp [decodeScalar, hp, hb]
  · intro st key s e h
    simp only [getKeyGo, h]
    rfl
  · intro st key xs e h
    simp only [getKeyGo, h]
    rfl
  · intro st key xs e h
    simp only [getKeyGo, h]
    rfl
  · intro st key fs e h
    simp only [getKeyGo, h]
    rfl
  · intro st key ms e h
    simp only [getKeyGo, h]
    congr 2
    apply List.map_congr_left
    intro zm _
    rcases hp : jsonParse zm.2 with _ | j
    · simp only [hp, decodeScalar]
      rcases hb : isBinary zm.2 with _ | _ <;> simp [hb]
    · simp [hp, decodeScalar]

/-- C6 witness: the hypotheses instantiated on concrete scalars and a
concrete two-element list entry. -/
theorem c6_decode_json_first_per_scalar_witness :
    decodeScalar (bstr "42") = .num ⟨42, 1⟩ ∧
    (decodeScalar (bstr "hi") = .str (bstr "hi") ↔
      ∀ b ∈ bstr "hi", 32 ≤ b ∧ b ≤ 126) ∧
    decodeScalar [195, 169] = blobJson [195, 169] ∧
    getKeyGo [("l", ⟨.rlist [bstr "42", [195, 169]], none⟩)] "l" =
      .found "list" (.arr ([bstr "42", [195, 169]].map decodeScalar)) :=
  ⟨c6_decode_json_first_per_scalar.1 (bstr "42") (.num ⟨42, 1⟩) (by rfl),
   c6_decode_json_first_per_scalar.2.1 (bstr "hi") (by rfl),
   c6_decode_json_first_per_scalar.2.2.1 [195, 169] (by rfl) (by rfl),
   c6_decode_json_first_per_scalar.2.2.2.2.1 _ "l" [bstr "42", [195, 169]] none (by rfl)⟩

/-! ## Claim C10 -/

/-- C10: a Scalar (`"string"`) write issues exactly one store command — a
`SET` carrying both the value and the expiration — so no `EXPIRE` ever
appears in a string trace and every partial execution of the trace either
leaves the store untouched or has value and TTL applied together (the
value-written-but-TTL-failed state is unreachable).  The separate
post-population `EXPIRE` step is guarded by `data.Type != "string"`: for
any non-string type whose switch succeeds with a positive TTL, the trace
ends with the extra `EXPIRE` command. -/
theorem c10_scalar_ttl_atomic :
    (∀ st key v q,
      (setKeyGo st key "string" v q).1 = .ok ∧
      (setKeyGo st key "string" v q).2.2 =
        [.setCmd key (strValueOf v) (ttlSecOf q)] ∧
      ((setKeyGo st key "string" v q).2.2.all (fun c => !isExpireCmd c)) = true ∧
      (∀ n, execNCmds st (setKeyGo st key "string" v q).2.2 n = st ∨
         execNCmds st (setKeyGo st key "string" v q).2.2 n =
           stPut st key ⟨.rstr (strValueOf v), expiryOf q⟩)) ∧
    (∀ st key ty v q st2 tr, ty ≠ "string" →
       setKeySwitch st key ty v (ttlSecOf q) = .proceed st2 tr →
       0 < ttlSecOf q →
       (setKeyGo st key ty v q).2.2 = tr ++ [.expireCmd key (ttlSecOf q)]) := by
  constructor
  · intro st key v q
    refine ⟨rfl, ?_, ?_, ?_⟩
    · cases v <;> rfl
    · cases v <;> rfl
    · intro n
      match n with
      | 0 => exact Or.inl rfl
      | 1 => cases v <;> exact Or.inr rfl
      | n + 2 => cases v <;> exact Or.inr rfl
  · intro st key ty v q st2 tr hne hsw hpos
    have hcond : ty ≠ "string" ∧ 0 < ttlSecOf q := ⟨hne, hpos⟩
    have hdef : setKeyGo st key ty v q =
        (match setKeySwitch st key ty v (ttlSecOf q) with
         | .failed o st2 tr => (o, st2, tr)
         | .proceed st2 tr =>
             if ty ≠ "string" ∧ 0 < ttlSecOf q then
               match applyCmd st2 (.expireCmd key (ttlSecOf q)) with
               | some st3 => (.ok, st3, tr ++ [.expireCmd key (ttlSecOf q)])
               | none => (.serverError, st2, tr ++ [.expireCmd key (ttlSecOf q)])
             else (.ok, st2, tr)) := rfl
    rcases hap : applyCmd st2 (.expireCmd key (ttlSecOf q)) with _ | st3 <;>
      simp [hdef, hsw, hne, hpos, hap]

/-- C10 witness: a concrete scalar write and a concrete zset write with a
positive TTL. -/
theorem c10_scalar_ttl_atomic_witness :
    (setKeyGo [] "s" "string" (.str (bstr "v")) ⟨7, 1⟩).2.2 =
      [.setCmd "s" (bstr "v") 7] ∧
    (setKeyGo [] "z" "zset"
        (.arr [.obj [(bstr "score", .num ⟨2, 1⟩), (bstr "member", .str (bstr "m"))]])
        ⟨7, 1⟩).2.2 =
      [.delCmd "z", .zaddCmd "z" ⟨2, 1⟩ (bstr "m")] ++ [.expireCmd "z" 7] :=
  ⟨(c10_scalar_ttl_atomic.1 [] "s" (.str (bstr "v")) ⟨7, 1⟩).2.1,
   c10_scalar_ttl_atomic.2 [] "z" "zset"
     (.arr [.obj [(bstr "score", .num ⟨2, 1⟩), (bstr "member", .str (bstr "m"))]])
     ⟨7, 1⟩ _ _ (by decide) (by rfl) (by decide)⟩

/-! ## Claim C3 -/

/-- `stErase` is idempotent. -/
theorem stErase_idem (st : Store) (k : String) :
    stErase (stErase st k) k = stErase st k := by
  simp [stErase, List.filter_filter]

/-- On a key currently absent or holding a zset, a run of the zset loop
whose elements are pushable until a malformed one is reached ends in the
panic outcome. -/
theorem zsetLoop_panics_at_bad (key : String) (pre : List Json) :
    ∀ st tr (bad : Json) (rest : List Json),
      (∀ x ∈ pre, zElemPushable x = true) → zElemBad bad = true →
      (stLookup st key = none ∨ ∃ ms e, stLookup st key = some ⟨.rzset ms, e⟩) →
      (zsetLoop key st tr (pre ++ bad :: rest)).2.2 = .panicStop := by
  induction pre with
  | nil =>
      intro st tr bad rest _ hbad _
      match bad with
      | .null | .bool _ | .num _ | .str _ | .arr _ => simp [zsetLoop]
      | .obj fs =>
          simp only [List.nil_append, zsetLoop]
          match hsc : objGet fs (bstr "score") with
          | none => simp
          | some .null | some (.bool _) | some (.str _) | some (.arr _) | some (.obj _) =>
              simp
          | some (.num sc) =>
              rw [zElemBad, hsc] at hbad
              exact Bool.noConfusion hbad
  | cons x pre ih =>
      intro st tr bad rest hpre hbad hinv
      have hx : zElemPushable x = true := hpre x (List.mem_cons_self x pre)
      match x with
      | .null | .bool _ | .num _ | .str _ | .arr _ => exact Bool.noConfusion hx
      | .obj fs =>
          match hsc : objGet fs (bstr "score") with
          | none => simp [zElemPushable, hsc] at hx
          | some .null | some (.bool _) | some (.str _) | some (.arr _) | some (.obj _) =>
              simp [zElemPushable, hsc] at hx
          | some (.num sc) =>
              simp only [zElemPushable, hsc] at hx
              have hmb : ∃ mb, (match objGet fs (bstr "member") with
                  | none => some ([] : ByteStr)
                  | some m => argToString m) = some mb := by
                match hm : objGet fs (bstr "member") with
                | none => exact ⟨[], rfl⟩
                | some m =>
                    simp only [hm] at hx ⊢
                    exact Option.isSome_iff_exists.mp hx
              obtain ⟨mb, hmb⟩ := hmb
              have hap : ∃ st2, applyCmd st (.zaddCmd key sc mb) = some st2 ∧
                  (stLookup st2 key = none ∨
                   ∃ ms e, stLookup st2 key = some ⟨.rzset ms, e⟩) := by
                rcases hinv with hnone | ⟨ms, e, hsome⟩
                · refine ⟨stPut st key ⟨.rzset [(sc, mb)], none⟩, ?_, Or.inr ?_⟩
                  · simp [applyCmd, hnone]
                  · exact ⟨[(sc, mb)], none, stLookup_stPut st key _⟩
                · refine ⟨stPut st key ⟨.rzset (if (ms.find? (fun p => p.2 == mb)).isSome
                      then ms.map (fun p => if p.2 == mb then (sc, mb) else p)
                      else ms ++ [(sc, mb)]), e⟩, ?_, Or.inr ?_⟩
                  · simp only [applyCmd, hsome]
                  · exact ⟨_, e, stLookup_stPut st key _⟩
              obtain ⟨st2, hap, hinv2⟩ := hap
              simp only [List.cons_append, zsetLoop, hsc, hmb, hap]
              exact ih st2 (tr ++ [.zaddCmd key sc mb]) bad rest
                (fun y hy => hpre y (List.mem_cons_of_mem _ hy)) hbad hinv2

/-- C3 counterexample: encoding a SortedSet whose only element has no
score over an existing zset at `"z"` panics only *after* the `DEL`: the
operation fails, the store is mutated and the key's previous value — the
member "old" with score 1 — is destroyed. -/
theorem c3_counterexample :
    (setKeyGo c3Store "z" "zset" c3BadPayload ⟨0, 1⟩).1 = .panicked ∧
    (setKeyGo c3Store "z" "zset" c3BadPayload ⟨0, 1⟩).2.2 = [.delCmd "z"] ∧
    stLookup (setKeyGo c3Store "z" "zset" c3BadPayload ⟨0, 1⟩).2.1 "z" = none ∧
    stLookup c3Store "z" = some ⟨.rzset [(⟨1, 1⟩, bstr "old")], none⟩ :=
  ⟨by rfl, by rfl, by rfl, by rfl⟩

/-- C3 amended: a wire payload whose *top-level* shape mismatches the
declared type (a List/Set/SortedSet value that is not a sequence, a Hash
value that is not a mapping) makes the operation fail before any store
command is issued, leaving the store unchanged; but a SortedSet *element*
without a float score makes the operation fail only after the `DEL` of the
existing value has already been issued — the key's previous value is not
preserved. -/
theorem c3_amended_shape_mismatch :
    (∀ st key v q, isArrJ v = false →
        setKeyGo st key "list" v q = (.panicked, st, []) ∧
        setKeyGo st key "set" v q = (.panicked, st, []) ∧
        setKeyGo st key "zset" v q = (.panicked, st, [])) ∧
    (∀ st key v q, isObjJ v = false →
        setKeyGo st key "hash" v q = (.panicked, st, [])) ∧
    (∀ st key q (pre : List Json) bad rest,
        (∀ x ∈ pre, zElemPushable x = true) → zElemBad bad = true →
        (setKeyGo st key "zset" (.arr (pre ++ bad :: rest)) q).1 = .panicked ∧
        (setKeyGo st key "zset" (.arr (pre ++ bad :: rest)) q).2.2.head? =
          some (.delCmd key)) := by
  refine ⟨?_, ?_, ?_⟩
  · intro st key v q hv
    match v with
    | .arr _ => exact Bool.noConfusion hv
    | .null | .bool _ | .num _ | .str _ | .obj _ => exact ⟨rfl, rfl, rfl⟩
  · intro st key v q hv
    match v with
    | .obj _ => exact Bool.noConfusion hv
    | .null | .bool _ | .num _ | .str _ | .arr _ => rfl
  · intro st key q pre bad rest hpre hbad
    have hres := zsetLoop_panics_at_bad key pre (stErase st key) [.delCmd key] bad rest
      hpre hbad (Or.inl (stLookup_stErase_self st key))
    obtain ⟨ext, hext⟩ := zsetLoop_trace key (stErase st key) [.delCmd key]
      (pre ++ bad :: rest)
    have hdef : setKeyGo st key "zset" (.arr (pre ++ bad :: rest)) q =
        (match loopFinish (zsetLoop key (stErase st key) [.delCmd key]
            (pre ++ bad :: rest)) with
         | .failed o st2 tr => (o, st2, tr)
         | .proceed st2 tr =>
             if ("zset" : String) ≠ "string" ∧ 0 < ttlSecOf q then
               match applyCmd st2 (.expireCmd key (ttlSecOf q)) with
               | some st3 => (.ok, st3, tr ++ [.expireCmd key (ttlSecOf q)])
               | none => (.serverError, st2, tr ++ [.expireCmd key (ttlSecOf q)])
             else (.ok, st2, tr)) := rfl
    rcases hloop : zsetLoop key (stErase st key) [.delCmd key] (pre ++ bad :: rest) with
      ⟨st2, tr2, res⟩
    rw [hloop] at hres hext
    simp only at hres hext
    subst hres
    rw [hdef, hloop]
    simp [loopFinish, hext]

/-! ## Claim C5 -/

/-- Pushing string elements onto an existing list entry appends them in
sequence order and succeeds. -/
theorem itemsLoop_rpush (key : String) (xs : List ByteStr) :
    ∀ st tr (acc : List ByteStr) (e : Option Nat),
      stLookup st key = some ⟨.rlist acc, e⟩ →
      itemsLoop (fun x => (argToString x).map (Cmd.rpushCmd key)) st tr
          (xs.map Json.str) =
        ((itemsLoop (fun x => (argToString x).map (Cmd.rpushCmd key)) st tr
           (xs.map Json.str)).1,
         tr ++ xs.map (Cmd.rpushCmd key), .allOk) ∧
      stLookup (itemsLoop (fun x => (argToString x).map (Cmd.rpushCmd key)) st tr
          (xs.map Json.str)).1 key = some ⟨.rlist (acc ++ xs), e⟩ := by
  induction xs with
  | nil =>
      intro st tr acc e h
      exact ⟨by simp [itemsLoop], by simpa using h⟩
  | cons x xs ih =>
      intro st tr acc e h
      have hap : applyCmd st (.rpushCmd key x) =
          some (stPut st key ⟨.rlist (acc ++ [x]), e⟩) := by
        simp only [applyCmd, h]
      have hlk := stLookup_stPut st key (⟨.rlist (acc ++ [x]), e⟩ : REntry)
      have hloop := ih (stPut st key ⟨.rlist (acc ++ [x]), e⟩)
        (tr ++ [.rpushCmd key x]) (acc ++ [x]) e hlk
      have hstep : itemsLoop (fun x => (argToString x).map (Cmd.rpushCmd key)) st tr
          ((x :: xs).map Json.str) =
          itemsLoop (fun x => (argToString x).map (Cmd.rpushCmd key))
            (stPut st key ⟨.rlist (acc ++ [x]), e⟩) (tr ++ [.rpushCmd key x])
            (xs.map Json.str) := by
        simp only [List.map_cons, itemsLoop, argToString, Option.map_some', hap]
      rw [hstep]
      refine ⟨?_, by simpa using hloop.2⟩
      rw [hloop.1]
      simp

/-- After the `DEL`, pushing a nonempty list of string elements leaves
exactly those elements, in order, with no expiry. -/
theorem setKeySwitch_list (st : Store) (key : String) (x : ByteStr)
    (xs : List ByteStr) (ttl : Nat) :
    ∃ st2, setKeySwitch st key "list" (.arr ((x :: xs).map .str)) ttl =
        .proceed st2 (.delCmd key :: (x :: xs).map (Cmd.rpushCmd key)) ∧
      stLookup st2 key = some ⟨.rlist (x :: xs), none⟩ := by
  have h0 : stLookup (stErase st key) key = none := stLookup_stErase_self st key
  have hap : applyCmd (stErase st key) (.rpushCmd key x) =
      some (stPut (stErase st key) key ⟨.rlist [x], none⟩) := by
    simp only [applyCmd, h0]
  have hlk := stLookup_stPut (stErase st key) key (⟨.rlist [x], none⟩ : REntry)
  have hloop := itemsLoop_rpush key xs
    (stPut (stErase st key) key ⟨.rlist [x], none⟩)
    [.delCmd key, .rpushCmd key x] [x] none hlk
  have hsw : setKeySwitch st key "list" (.arr ((x :: xs).map .str)) ttl =
      loopFinish (itemsLoop (fun x => (argToString x).map (Cmd.rpushCmd key))
        (stErase st key) [.delCmd key] ((x :: xs).map Json.str)) := rfl
  have hstep : itemsLoop (fun x => (argToString x).map (Cmd.rpushCmd key))
      (stErase st key) [.delCmd key] ((x :: xs).map Json.str) =
      itemsLoop (fun x => (argToString x).map (Cmd.rpushCmd key))
        (stPut (stErase st key) key ⟨.rlist [x], none⟩)
        [.delCmd key, .rpushCmd key x] (xs.map Json.str) := by
    simp only [List.map_cons, itemsLoop, argToString, Option.map_some', hap]
    rfl
  refine ⟨(itemsLoop (fun x => (argToString x).map (Cmd.rpushCmd key))
      (stPut (stErase st key) key ⟨.rlist [x], none⟩)
      [.delCmd key, .rpushCmd key x] (xs.map Json.str)).1, ?_, by simpa using hloop.2⟩
  rw [hsw, hstep, hloop.1]
  simp [loopFinish]

/-- C5: collection encodes clear the key before writing.
(i) The claim's own example: a list write of `["x","y"]` over an existing
5-element list leaves exactly the two elements `x, y`, in order.
(ii) In general, a list write of nonempty string elements succeeds and the
key afterwards holds exactly those elements in sequence order (with the
requested expiry), whatever was stored before.
(iii) For all four collection types the first store command issued is the
`DEL` of the key.
(iv) For all four collection types the entire outcome is the same as if
the key had already been absent: nothing of the previous value survives. -/
theorem c5_clear_before_write :
    (setKeyGo
        [("k", ⟨.rlist [bstr "1", bstr "2", bstr "3", bstr "4", bstr "5"], none⟩)]
        "k" "list" (.arr [.str (bstr "x"), .str (bstr "y")]) ⟨0, 1⟩ =
      (.ok, [("k", ⟨.rlist [bstr "x", bstr "y"], none⟩)],
       [.delCmd "k", .rpushCmd "k" (bstr "x"), .rpushCmd "k" (bstr "y")])) ∧
    (∀ st key (x : ByteStr) (xs : List ByteStr) q,
      (setKeyGo st key "list" (.arr ((x :: xs).map .str)) q).1 = .ok ∧
      stLookup (setKeyGo st key "list" (.arr ((x :: xs).map .str)) q).2.1 key =
        some ⟨.rlist (x :: xs), expiryOf q⟩) ∧
    ((∀ st key xs q,
        (setKeyGo st key "list" (.arr xs) q).2.2.head? = some (.delCmd key)) ∧
     (∀ st key xs q,
        (setKeyGo st key "set" (.arr xs) q).2.2.head? = some (.delCmd key)) ∧
     (∀ st key fs q,
        (setKeyGo st key "hash" (.obj fs) q).2.2.head? = some (.delCmd key)) ∧
     (∀ st key xs q,
        (setKeyGo st key "zset" (.arr xs) q).2.2.head? = some (.delCmd key))) ∧
    ((∀ st key xs q, setKeyGo st key "list" (.arr xs) q =
        setKeyGo (stErase st key) key "list" (.arr xs) q) ∧
     (∀ st key xs q, setKeyGo st key "set" (.arr xs) q =
        setKeyGo (stErase st key) key "set" (.arr xs) q) ∧
     (∀ st key fs q, setKeyGo st key "hash" (.obj fs) q =
        setKeyGo (stErase st key) key "hash" (.obj fs) q) ∧
     (∀ st key xs q, setKeyGo st key "zset" (.arr xs) q =
        setKeyGo (stErase st key) key "zset" (.arr xs) q)) := by
  refine ⟨by rfl, ?_, ⟨?_, ?_, ?_, ?_⟩, ⟨?_, ?_, ?_, ?_⟩⟩
  · intro st key x xs q
    obtain ⟨st2, hsw, hlk⟩ := setKeySwitch_list st key x xs (ttlSecOf q)
    have hdef : setKeyGo st key "list" (.arr ((x :: xs).map .str)) q =
        ttlStep key (ttlSecOf q) "list"
          (setKeySwitch st key "list" (.arr ((x :: xs).map .str)) (ttlSecOf q)) := rfl
    rw [hdef, hsw]
    by_cases hq : 0 < ttlSecOf q
    · have hex : applyCmd st2 (.expireCmd key (ttlSecOf q)) =
          some (stPut st2 key ⟨.rlist (x :: xs), some (ttlSecOf q)⟩) := by
        simp only [applyCmd, hlk]
        rw [if_pos hq]
      simp only [ttlStep, hex, if_pos (⟨by decide, hq⟩ : ("list" : String) ≠ "string" ∧
        0 < ttlSecOf q)]
      refine ⟨by trivial, ?_⟩
      rw [stLookup_stPut]
      simp [expiryOf, hq]
    · simp only [ttlStep,
        if_neg (fun hcon => hq hcon.2 : ¬(("list" : String) ≠ "string" ∧ 0 < ttlSecOf q))]
      refine ⟨by trivial, ?_⟩
      rw [hlk]
      simp [expiryOf, hq]
  · intro st key xs q
    have hdef : setKeyGo st key "list" (.arr xs) q =
        ttlStep key (ttlSecOf q) "list"
          (loopFinish (itemsLoop (fun x => (argToString x).map (Cmd.rpushCmd key))
            (stErase st key) [.delCmd key] xs)) := rfl
    obtain ⟨ext, hext⟩ := itemsLoop_trace (fun x => (argToString x).map (Cmd.rpushCmd key))
      (stErase st key) [.delCmd key] xs
    rcases hL : itemsLoop (fun x => (argToString x).map (Cmd.rpushCmd key))
        (stErase st key) [.delCmd key] xs with ⟨stF, trF, resF⟩
    rw [hL] at hext
    simp only at hext
    rw [hdef, hL]
    cases resF <;>
      simp [ttlStep, loopFinish, hext] <;>
      split <;>
      rcases applyCmd stF (.expireCmd key (ttlSecOf q)) with _ | st3 <;>
      simp [hext]
  · intro st key xs q
    have hdef : setKeyGo st key "set" (.arr xs) q =
        ttlStep key (ttlSecOf q) "set"
          (loopFinish (itemsLoop (fun x => (argToString x).map (Cmd.saddCmd key))
            (stErase st key) [.delCmd key] xs)) := rfl
    obtain ⟨ext, hext⟩ := itemsLoop_trace (fun x => (argToString x).map (Cmd.saddCmd key))
      (stErase st key) [.delCmd key] xs
    rcases hL : itemsLoop (fun x => (argToString x).map (Cmd.saddCmd key))
        (stErase st key) [.delCmd key] xs with ⟨stF, trF, resF⟩
    rw [hL] at hext
    simp only at hext
    rw [hdef, hL]
    cases resF <;>
      simp [ttlStep, loopFinish, hext] <;>
      split <;>
      rcases applyCmd stF (.expireCmd key (ttlSecOf q)) with _ | st3 <;>
      simp [hext]
  · intro st key fs q
    have hdef : setKeyGo st key "hash" (.obj fs) q =
        ttlStep key (ttlSecOf q) "hash"
          (loopFinish (hashLoop key (stErase st key) [.delCmd key] (objPairs fs))) := rfl
    obtain ⟨ext, hext⟩ := hashLoop_trace key (stErase st key) [.delCmd key] (objPairs fs)
    rcases hL : hashLoop key (stErase st key) [.delCmd key] (objPairs fs) with
      ⟨stF, trF, resF⟩
    rw [hL] at hext
    simp only at hext
    rw [hdef, hL]
    cases resF <;>
      simp [ttlStep, loopFinish, hext] <;>
      split <;>
      rcases applyCmd stF (.expireCmd key (ttlSecOf q)) with _ | st3 <;>
      simp [hext]
  · intro st key xs q
    have hdef : setKeyGo st key "zset" (.arr xs) q =
        ttlStep key (ttlSecOf q) "zset"
          (loopFinish (zsetLoop key (stErase st key) [.delCmd key] xs)) := rfl
    obtain ⟨ext, hext⟩ := zsetLoop_trace key (stErase st key) [.delCmd key] xs
    rcases hL : zsetLoop key (stErase st key) [.delCmd key] xs with ⟨stF, trF, resF⟩
    rw [hL] at hext
    simp only at hext
    rw [hdef, hL]
    cases resF <;>
      simp [ttlStep, loopFinish, hext] <;>
      split <;>
      rcases applyCmd stF (.expireCmd key (ttlSecOf q)) with _ | st3 <;>
      simp [hext]
  · intro st key xs q
    exact congrArg (ttlStep key (ttlSecOf q) "list" ∘
        loopFinish ∘ (itemsLoop (fun x => (argToString x).map (Cmd.rpushCmd key)) ·
          [.delCmd key] xs))
      (stErase_idem st key).symm
  · intro st key xs q
    exact congrArg (ttlStep key (ttlSecOf q) "set" ∘
        loopFinish ∘ (itemsLoop (fun x => (argToString x).map (Cmd.saddCmd key)) ·
          [.delCmd key] xs))
      (stErase_idem st key).symm
  · intro st key fs q
    exact congrArg (ttlStep key (ttlSecOf q) "hash" ∘
        loopFinish ∘ (hashLoop key · [.delCmd key] (objPairs fs)))
      (stErase_idem st key).symm
  · intro st key xs q
    exact congrArg (ttlStep key (ttlSecOf q) "zset" ∘
        loopFinish ∘ (zsetLoop key · [.delCmd key] xs))
      (stErase_idem st key).symm

/-- C5 witness: the general list law at a concrete two-element write over
a concrete prior value, plus the del-first and independence parts at the
same input. -/
theorem c5_clear_before_write_witness :
    (setKeyGo [("k", ⟨.rstr (bstr "old"), some 3⟩)] "k" "list"
        (.arr ([bstr "x", bstr "y"].map .str)) ⟨0, 1⟩).1 = .ok ∧
    stLookup (setKeyGo [("k", ⟨.rstr (bstr "old"), some 3⟩)] "k" "list"
        (.arr ([bstr "x", bstr "y"].map .str)) ⟨0, 1⟩).2.1 "k" =
      some ⟨.rlist [bstr "x", bstr "y"], expiryOf ⟨0, 1⟩⟩ ∧
    (setKeyGo [("k", ⟨.rstr (bstr "old"), some 3⟩)] "k" "zset"
        (.arr []) ⟨0, 1⟩).2.2.head? = some (.delCmd "k") :=
  ⟨(c5_clear_before_write.2.1 [("k", ⟨.rstr (bstr "old"), some 3⟩)] "k"
      (bstr "x") [bstr "y"] ⟨0, 1⟩).1,
   (c5_clear_before_write.2.1 [("k", ⟨.rstr (bstr "old"), some 3⟩)] "k"
      (bstr "x") [bstr "y"] ⟨0, 1⟩).2,
   c5_clear_before_write.2.2.1.2.2.2 [("k", ⟨.rstr (bstr "old"), some 3⟩)] "k" [] ⟨0, 1⟩⟩

/-! ## Claims C7 and C8: supporting lemmas for the tree builder -/

theorem take_self (p : TPath) : p.take p.length = p := List.take_length _

theorem take_length_of_le (full : TPath) (j : Nat) (h : j ≤ full.length) :
    (full.take j).length = j := List.length_take_of_le h

theorem take_of_take (full : TPath) (i j : Nat) (h : j ≤ i) :
    (full.take i).take j = full.take j := by
  rw [List.take_take]
  congr 1
  omega

theorem le_length_of_take_eq (p q : TPath) (h : q.take p.length = p) :
    p.length ≤ q.length := by
  have := congrArg List.length h
  rw [List.length_take] at this
  omega

theorem eq_of_take_eq_len (p q : TPath) (h : q.take p.length = p)
    (hlen : q.length = p.length) : q = p := by
  rw [← h, ← hlen, take_self]

theorem dropLast_take (full : TPath) (j : Nat) (h : j + 1 ≤ full.length) :
    (full.take (j + 1)).dropLast = full.take j := by
  rw [List.dropLast_eq_take, List.take_take, List.length_take]
  congr 1
  omega

theorem dropLast_eq_take_pred (q : TPath) :
    q.dropLast = q.take (q.length - 1) := List.dropLast_eq_take q

theorem splitColon_ne_nil (cs : List Char) : splitColon cs ≠ [] := by
  cases cs with
  | nil => simp [splitColon]
  | cons c rest =>
      simp only [splitColon]
      rcases h : splitColon rest with _ | ⟨p, ps⟩
      · simp
      · by_cases hc : c = ':' <;> simp [hc]

theorem keyParts_length_pos (k : String) : 1 ≤ (keyParts k).length := by
  rcases h : keyParts k with _ | ⟨p, ps⟩
  · exact absurd h (splitColon_ne_nil k.data)
  · simp

/-- Joining with `:` undoes `splitColon`. -/
def joinColon : List Seg → List Char
  | [] => []
  | [s] => s
  | s :: t :: r => s ++ ':' :: joinColon (t :: r)

theorem joinColon_splitColon (cs : List Char) : joinColon (splitColon cs) = cs := by
  induction cs with
  | nil => rfl
  | cons c rest ih =>
      simp only [splitColon]
      rcases h : splitColon rest with _ | ⟨p, ps⟩
      · exact absurd h (splitColon_ne_nil rest)
      · rw [h] at ih
        show joinColon (if c = ':' then [] :: p :: ps else (c :: p) :: ps) = c :: rest
        by_cases hc : c = ':'
        · subst hc
          simp only [if_pos rfl, joinColon]
          exact congrArg (List.cons ':') ih
        · simp only [if_neg hc]
          cases ps with
          | nil => simpa [joinColon] using congrArg (List.cons c) ih
          | cons t r => simpa [joinColon] using congrArg (List.cons c) ih

theorem keyParts_inj (a b : String) (h : keyParts a = keyParts b) : a = b := by
  have h2 : joinColon (splitColon a.data) = joinColon (splitColon b.data) :=
    congrArg joinColon h
  rw [joinColon_splitColon, joinColon_splitColon] at h2
  cases a; cases b
  exact congrArg String.mk h2

theorem key_empty_of_parts (k : String) (h : 2 ≤ (keyParts k).length) : k ≠ "" := by
  intro hk
  subst hk
  simp [keyParts, splitColon] at h

/-! ### pathFind basics -/

theorem pathFind_eq_none_iff (m : NodeMap) (p : TPath) :
    pathFind m p = none ↔ p ∉ domPaths m := by
  induction m with
  | nil => simp [pathFind, domPaths]
  | cons x m ih =>
      by_cases h : x.1 = p
      · simp [pathFind, domPaths, List.find?_cons, h]
      · simpa [pathFind, domPaths, List.find?_cons, h, Ne.symm h] using ih

theorem pathFind_mem_domPaths (m : NodeMap) (p : TPath) (info : NodeInfo)
    (h : pathFind m p = some info) : p ∈ domPaths m := by
  by_contra hc
  rw [← pathFind_eq_none_iff] at hc
  rw [h] at hc
  exact Option.noConfusion hc

theorem pathFind_append_some (m ext : NodeMap) (p : TPath) (info : NodeInfo)
    (h : pathFind m p = some info) : pathFind (m ++ ext) p = some info := by
  simp only [pathFind] at h ⊢
  rw [List.find?_append]
  rcases hf : m.find? (fun e => e.1 == p) with _ | e
  · rw [hf] at h; exact Option.noConfusion h
  · rw [hf] at h; rw [hf]; exact h

theorem pathFind_append_single_ne (m : NodeMap) (q : TPath) (e : NodeInfo)
    (p : TPath) (h : p ≠ q) : pathFind (m ++ [(q, e)]) p = pathFind m p := by
  simp only [pathFind, List.find?_append]
  rcases hf : m.find? (fun x => x.1 == p) with _ | x
  · simp [hf, List.find?_cons, Ne.symm h]
  · simp [hf]

theorem pathFind_append_single_self (m : NodeMap) (q : TPath) (e : NodeInfo) :
    pathFind m q = none → pathFind (m ++ [(q, e)]) q = some e := by
  intro h
  simp only [pathFind, List.find?_append]
  rcases hf : m.find? (fun x => x.1 == q) with _ | x
  · simp [hf, List.find?_cons]
  · rw [pathFind, hf] at h
    simp at h

theorem domPaths_append (m ext : NodeMap) :
    domPaths (m ++ ext) = domPaths m ++ domPaths ext := by
  simp [domPaths]

/-! ### First-pass fold lemmas -/

theorem insNode_cases (k : KeyMeta) (parts : TPath) (m : NodeMap) (i : Nat) :
    insNode k parts m i = m ∨
    (pathFind m (parts.take (i + 1)) = none ∧
     insNode k parts m i = m ++ [(parts.take (i + 1), mkNodeInfo k parts i)]) := by
  unfold insNode
  rcases h : pathFind m (parts.take (i + 1)) with _ | info
  · right
    exact ⟨rfl, by simp [h]⟩
  · left
    simp [h]

theorem insNode_absent (k : KeyMeta) (parts : TPath) (m : NodeMap) (i : Nat)
    (h : pathFind m (parts.take (i + 1)) = none) :
    insNode k parts m i = m ++ [(parts.take (i + 1), mkNodeInfo k parts i)] := by
  simp [insNode, h]

theorem foldIns_pers (k : KeyMeta) (parts : TPath) (L : List Nat) :
    ∀ m p info, pathFind m p = some info →
      pathFind (L.foldl (insNode k parts) m) p = some info := by
  induction L with
  | nil => intro m p info h; simpa using h
  | cons i L ih =>
      intro m p info h
      simp only [List.foldl_cons]
      apply ih
      rcases insNode_cases k parts m i with hc | ⟨_, hc⟩
      · rw [hc]; exact h
      · rw [hc]; exact pathFind_append_some _ _ _ _ h

theorem foldIns_dom_mono (k : KeyMeta) (parts : TPath) (L : List Nat) :
    ∀ m p, p ∈ domPaths m → p ∈ domPaths (L.foldl (insNode k parts) m) := by
  induction L with
  | nil => intro m p h; simpa using h
  | cons i L ih =>
      intro m p h
      simp only [List.foldl_cons]
      apply ih
      rcases insNode_cases k parts m i with hc | ⟨_, hc⟩
      · rw [hc]; exact h
      · rw [hc, domPaths_append]
        exact List.mem_append_left _ h

theorem foldIns_dom_sub (k : KeyMeta) (parts : TPath) (L : List Nat) :
    ∀ m p, p ∈ domPaths (L.foldl (insNode k parts) m) →
      p ∈ domPaths m ∨ ∃ i ∈ L, p = parts.take (i + 1) := by
  induction L with
  | nil => intro m p h; exact Or.inl (by simpa using h)
  | cons i L ih =>
      intro m p h
      simp only [List.foldl_cons] at h
      rcases ih (insNode k parts m i) p h with hm | ⟨j, hj, hp⟩
      · rcases insNode_cases k parts m i with hc | ⟨_, hc⟩
        · rw [hc] at hm; exact Or.inl hm
        · rw [hc, domPaths_append] at hm
          rcases List.mem_append.mp hm with hm1 | hm2
          · exact Or.inl hm1
          · right
            refine ⟨i, List.mem_cons_self i L, ?_⟩
            simpa [domPaths] using hm2
      · exact Or.inr ⟨j, List.mem_cons_of_mem _ hj, hp⟩

theorem foldIns_creates (k : KeyMeta) (parts : TPath) (L : List Nat) :
    ∀ m i, i ∈ L → parts.take (i + 1) ∈ domPaths (L.foldl (insNode k parts) m) := by
  induction L with
  | nil => intro m i h; exact absurd h (List.not_mem_nil i)
  | cons j L ih =>
      intro m i hi
      simp only [List.foldl_cons]
      rcases List.mem_cons.mp hi with rfl | hi2
      · apply foldIns_dom_mono
        rcases hp : pathFind m (parts.take (i + 1)) with _ | info
        · rw [insNode_absent k parts m i hp, domPaths_append]
          exact List.mem_append_right _ (by simp [domPaths])
        · have hm := pathFind_mem_domPaths m _ info hp
          rcases insNode_cases k parts m i with hc | ⟨_, hc⟩
          · rw [hc]; exact hm
          · rw [hc, domPaths_append]
            exact List.mem_append_left _ hm
      · exact ih _ i hi2

theorem foldIns_info_src (k : KeyMeta) (parts : TPath) (L : List Nat)
    (hL : ∀ j ∈ L, j < parts.length) :
    ∀ m p info, pathFind m p = none →
      pathFind (L.foldl (insNode k parts) m) p = some info →
      ∃ i ∈ L, p = parts.take (i + 1) ∧ info = mkNodeInfo k parts i := by
  induction L with
  | nil =>
      intro m p info h0 h1
      simp only [List.foldl_nil] at h1
      rw [h0] at h1
      exact Option.noConfusion h1
  | cons j L ih =>
      intro m p info h0 h1
      simp only [List.foldl_cons] at h1
      by_cases hpq : p = parts.take (j + 1)
      · subst hpq
        have hsome : pathFind (insNode k parts m j) (parts.take (j + 1)) =
            some (mkNodeInfo k parts j) := by
          rw [insNode_absent k parts m j h0]
          exact pathFind_append_single_self m _ _ h0
        have hfin := foldIns_pers k parts L _ _ _ hsome
        rw [hfin] at h1
        injection h1 with h1
        exact ⟨j, List.mem_cons_self j L, rfl, h1.symm⟩
      · have hnone : pathFind (insNode k parts m j) p = none := by
          rcases insNode_cases k parts m j with hc | ⟨_, hc⟩
          · rw [hc]; exact h0
          · rw [hc, pathFind_append_single_ne m _ _ p hpq]
            exact h0
        obtain ⟨i, hiL, hpi, hinfo⟩ := ih (fun x hx => hL x (List.mem_cons_of_mem _ hx))
          (insNode k parts m j) p info hnone h1
        exact ⟨i, List.mem_cons_of_mem _ hiL, hpi, hinfo⟩

theorem foldIns_nodup (k : KeyMeta) (parts : TPath) (L : List Nat) :
    ∀ m, (domPaths m).Nodup → (domPaths (L.foldl (insNode k parts) m)).Nodup := by
  induction L with
  | nil => intro m h; simpa using h
  | cons i L ih =>
      intro m h
      simp only [List.foldl_cons]
      apply ih
      rcases insNode_cases k parts m i with hc | ⟨habs, hc⟩
      · rw [hc]; exact h
      · rw [hc, domPaths_append]
        have : parts.take (i + 1) ∉ domPaths m := (pathFind_eq_none_iff m _).mp habs
        simp only [domPaths, List.map_cons, List.map_nil]
        rw [List.nodup_append]
        exact ⟨h, List.nodup_singleton _, by simpa [domPaths] using this⟩

/-! ### Per-descriptor and whole-batch lemmas -/

theorem insKP_pers (m : NodeMap) (k : KeyMeta) (p : TPath) (info : NodeInfo)
    (h : pathFind m p = some info) : pathFind (insertKeyPaths m k) p = some info := by
  unfold insertKeyPaths
  by_cases hk : k.key = ""
  · rw [if_pos hk]; exact h
  · rw [if_neg hk]; exact foldIns_pers _ _ _ _ _ _ h

theorem insKP_dom_mono (m : NodeMap) (k : KeyMeta) (p : TPath)
    (h : p ∈ domPaths m) : p ∈ domPaths (insertKeyPaths m k) := by
  unfold insertKeyPaths
  by_cases hk : k.key = ""
  · rw [if_pos hk]; exact h
  · rw [if_neg hk]; exact foldIns_dom_mono _ _ _ _ _ h

theorem insKP_dom_sub (m : NodeMap) (k : KeyMeta) (p : TPath)
    (h : p ∈ domPaths (insertKeyPaths m k)) :
    p ∈ domPaths m ∨
    (k.key ≠ "" ∧ ∃ i < (kparts k).length, p = (kparts k).take (i + 1)) := by
  unfold insertKeyPaths at h
  by_cases hk : k.key = ""
  · rw [if_pos hk] at h; exact Or.inl h
  · rw [if_neg hk] at h
    rcases foldIns_dom_sub k (keyParts k.key) _ m p h with hm | ⟨i, hi, hp⟩
    · exact Or.inl hm
    · exact Or.inr ⟨hk, i, List.mem_range.mp hi, hp⟩

theorem insKP_creates (m : NodeMap) (k : KeyMeta) (i : Nat)
    (hk : k.key ≠ "") (hi : i < (kparts k).length) :
    (kparts k).take (i + 1) ∈ domPaths (insertKeyPaths m k) := by
  unfold insertKeyPaths
  rw [if_neg hk]
  exact foldIns_creates k (keyParts k.key) _ m i (List.mem_range.mpr hi)

theorem insKP_info_src (m : NodeMap) (k : KeyMeta) (p : TPath) (info : NodeInfo)
    (h0 : pathFind m p = none) (h1 : pathFind (insertKeyPaths m k) p = some info) :
    k.key ≠ "" ∧ ∃ i < (kparts k).length,
      p = (kparts k).take (i + 1) ∧ info = mkNodeInfo k (kparts k) i := by
  unfold insertKeyPaths at h1
  by_cases hk : k.key = ""
  · rw [if_pos hk] at h1
    rw [h0] at h1
    exact Option.noConfusion h1
  · rw [if_neg hk] at h1
    obtain ⟨i, hiL, hpi, hinfo⟩ :=
      foldIns_info_src k (keyParts k.key) _ (fun j hj => List.mem_range.mp hj)
        m p info h0 h1
    exact ⟨hk, i, List.mem_range.mp hiL, hpi, hinfo⟩

theorem insKP_nodup (m : NodeMap) (k : KeyMeta) (h : (domPaths m).Nodup) :
    (domPaths (insertKeyPaths m k)).Nodup := by
  unfold insertKeyPaths
  by_cases hk : k.key = ""
  · rw [if_pos hk]; exact h
  · rw [if_neg hk]; exact foldIns_nodup _ _ _ _ h

theorem buildFold_pers (ks : List KeyMeta) :
    ∀ m p info, pathFind m p = some info →
      pathFind (ks.foldl insertKeyPaths m) p = some info := by
  induction ks with
  | nil => intro m p info h; simpa using h
  | cons k ks ih =>
      intro m p info h
      simp only [List.foldl_cons]
      exact ih _ _ _ (insKP_pers m k p info h)

theorem buildFold_dom_mono (ks : List KeyMeta) :
    ∀ m p, p ∈ domPaths m → p ∈ domPaths (ks.foldl insertKeyPaths m) := by
  induction ks with
  | nil => intro m p h; simpa using h
  | cons k ks ih =>
      intro m p h
      simp only [List.foldl_cons]
      exact ih _ _ (insKP_dom_mono m k p h)

theorem buildFold_dom_sub (ks : List KeyMeta) :
    ∀ m p, p ∈ domPaths (ks.foldl insertKeyPaths m) →
      p ∈ domPaths m ∨
      ∃ k ∈ ks, k.key ≠ "" ∧ ∃ i < (kparts k).length, p = (kparts k).take (i + 1) := by
  induction ks with
  | nil => intro m p h; exact Or.inl (by simpa using h)
  | cons k ks ih =>
      intro m p h
      simp only [List.foldl_cons] at h
      rcases ih _ p h with hm | ⟨k2, hk2, hrest⟩
      · rcases insKP_dom_sub m k p hm with hm2 | ⟨hk, hex⟩
        · exact Or.inl hm2
        · exact Or.inr ⟨k, List.mem_cons_self k ks, hk, hex⟩
      · exact Or.inr ⟨k2, List.mem_cons_of_mem _ hk2, hrest⟩

theorem buildFold_creates (ks : List KeyMeta) :
    ∀ m k, k ∈ ks → k.key ≠ "" → ∀ i, i < (kparts k).length →
      (kparts k).take (i + 1) ∈ domPaths (ks.foldl insertKeyPaths m) := by
  induction ks with
  | nil => intro m k h; exact absurd h (List.not_mem_nil k)
  | cons k0 ks ih =>
      intro m k hk hne i hi
      simp only [List.foldl_cons]
      rcases List.mem_cons.mp hk with rfl | hk2
      · exact buildFold_dom_mono ks _ _ (insKP_creates m k i hne hi)
      · exact ih _ k hk2 hne i hi

theorem buildFold_info_src (ks : List KeyMeta) :
    ∀ m p info, pathFind m p = none →
      pathFind (ks.foldl insertKeyPaths m) p = some info →
      ∃ k ∈ ks, k.key ≠ "" ∧ ∃ i < (kparts k).length,
        p = (kparts k).take (i + 1) ∧ info = mkNodeInfo k (kparts k) i := by
  induction ks with
  | nil =>
      intro m p info h0 h1
      simp only [List.foldl_nil] at h1
      rw [h0] at h1
      exact Option.noConfusion h1
  | cons k ks ih =>
      intro m p info h0 h1
      simp only [List.foldl_cons] at h1
      rcases h2 : pathFind (insertKeyPaths m k) p with _ | info0
      · obtain ⟨k2, hk2, hrest⟩ := ih _ p info h2 h1
        exact ⟨k2, List.mem_cons_of_mem _ hk2, hrest⟩
      · have hfin := buildFold_pers ks _ _ _ h2
        rw [hfin] at h1
        obtain ⟨hne, i, hi, hp, hinfo⟩ := insKP_info_src m k p info0 h0 h2
        refine ⟨k, List.mem_cons_self k ks, hne, i, hi, hp, ?_⟩
        rw [← (Option.some.injEq _ _).mp h1]
        exact hinfo

theorem buildFold_nodup (ks : List KeyMeta) :
    ∀ m, (domPaths m).Nodup → (domPaths (ks.foldl insertKeyPaths m)).Nodup := by
  induction ks with
  | nil => intro m h; simpa using h
  | cons k ks ih =>
      intro m h
      simp only [List.foldl_cons]
      exact ih _ (insKP_nodup m k h)

/-! ### The built map under the amended C7 hypotheses -/

theorem pathFind_isSome_of_mem (m : NodeMap) (p : TPath) (h : p ∈ domPaths m) :
    ∃ info, pathFind m p = some info := by
  rcases hf : pathFind m p with _ | info
  · exact absurd h (by simpa using (pathFind_eq_none_iff m p).mp hf)
  · exact ⟨info, rfl⟩

theorem isLeafPath_iff (m : NodeMap) (q : TPath) :
    isLeafPath m q = true ↔ ∃ info, pathFind m q = some info ∧ info.leaf = true := by
  unfold isLeafPath
  rcases h : pathFind m q with _ | info <;> simp [h]

theorem build_dom_iff (ks : List KeyMeta) (p : TPath) :
    p ∈ domPaths (buildMapGo ks) ↔
    ∃ k ∈ ks, k.key ≠ "" ∧ ∃ i < (kparts k).length, p = (kparts k).take (i + 1) := by
  constructor
  · intro h
    rcases buildFold_dom_sub ks [] p h with hm | hex
    · simp [domPaths] at hm
    · exact hex
  · rintro ⟨k, hk, hne, i, hi, rfl⟩
    exact buildFold_creates ks [] k hk hne i hi

theorem build_dom_len_pos (ks : List KeyMeta) (p : TPath)
    (h : p ∈ domPaths (buildMapGo ks)) : 1 ≤ p.length := by
  obtain ⟨k, _, _, i, hi, rfl⟩ := (build_dom_iff ks p).mp h
  rw [take_length_of_le _ _ (by omega)]
  omega

theorem build_closed (ks : List KeyMeta) :
    ∀ p ∈ domPaths (buildMapGo ks), ∀ j, 1 ≤ j → j ≤ p.length →
      p.take j ∈ domPaths (buildMapGo ks) := by
  intro p hp j hj1 hj2
  obtain ⟨k, hk, hne, i, hi, rfl⟩ := (build_dom_iff ks p).mp hp
  rw [take_length_of_le _ _ (by omega)] at hj2
  rw [take_of_take _ _ _ (by omega)]
  apply (build_dom_iff ks _).mpr
  exact ⟨k, hk, hne, j - 1, by omega, by rw [show j - 1 + 1 = j by omega]⟩

theorem build_nodup (ks : List KeyMeta) : (domPaths (buildMapGo ks)).Nodup :=
  buildFold_nodup ks [] (by simp [domPaths])

theorem build_info_src (ks : List KeyMeta) (p : TPath) (info : NodeInfo)
    (h : pathFind (buildMapGo ks) p = some info) :
    ∃ k ∈ ks, k.key ≠ "" ∧ ∃ i < (kparts k).length,
      p = (kparts k).take (i + 1) ∧ info = mkNodeInfo k (kparts k) i :=
  buildFold_info_src ks [] p info rfl h

theorem build_leaf_iff (ks : List KeyMeta)
    (hpf : ∀ k ∈ ks, ∀ k2 ∈ ks,
      (kparts k2).take (kparts k).length = kparts k → k.key = k2.key)
    (p : TPath) (info : NodeInfo) (h : pathFind (buildMapGo ks) p = some info) :
    info.leaf = true ↔ ∃ k ∈ ks, p = kparts k := by
  obtain ⟨k, hk, hne, i, hi, hp, hinfo⟩ := build_info_src ks p info h
  subst hinfo
  constructor
  · intro hleaf
    have hlen : i + 1 = (kparts k).length := of_decide_eq_true hleaf
    refine ⟨k, hk, ?_⟩
    rw [hp, hlen, take_self]
  · rintro ⟨k0, hk0, hpk0⟩
    by_contra hleaf
    have hne2 : i + 1 ≠ (kparts k).length := fun hcon => hleaf (by
      show decide (i + 1 = (kparts k).length) = true
      simp [hcon])
    have hplen : p.length = i + 1 := by
      rw [hp]
      exact take_length_of_le _ _ (by omega)
    have htake : (kparts k).take (kparts k0).length = kparts k0 := by
      rw [← hpk0, hplen, ← hp]
    have hkeys := hpf k0 hk0 k hk htake
    have hpts : kparts k0 = kparts k := by
      show keyParts k0.key = keyParts k.key
      rw [hkeys]
    rw [hpk0, hpts] at hplen
    omega

theorem build_leaf_maximal (ks : List KeyMeta)
    (hpf : ∀ k ∈ ks, ∀ k2 ∈ ks,
      (kparts k2).take (kparts k).length = kparts k → k.key = k2.key) :
    ∀ q ∈ domPaths (buildMapGo ks), isLeafPath (buildMapGo ks) q = true →
      ∀ r ∈ domPaths (buildMapGo ks), r.take q.length = q → r = q := by
  intro q hq hleafq r hr htake
  obtain ⟨infoq, hfq⟩ := pathFind_isSome_of_mem _ _ hq
  have hleaf2 : infoq.leaf = true := by
    obtain ⟨info2, hf2, hl2⟩ := (isLeafPath_iff _ _).mp hleafq
    rw [hfq] at hf2
    injection hf2 with hf2
    rw [hf2]
    exact hl2
  obtain ⟨k0, hk0, hq0⟩ := (build_leaf_iff ks hpf q infoq hfq).mp hleaf2
  obtain ⟨k, hk, hne, i, hi, hr2⟩ := (build_dom_iff ks r).mp hr
  have hrlen : r.length = i + 1 := by
    rw [hr2]
    exact take_length_of_le _ _ (by omega)
  have hqr : q.length ≤ r.length := le_length_of_take_eq q r htake
  have htk : (kparts k).take q.length = q := by
    conv_rhs => rw [← htake]
    rw [hr2, take_of_take _ _ _ (by omega)]
  subst hq0
  have hkeys := hpf k0 hk0 k hk htk
  have hpts : kparts k0 = kparts k := by
    show keyParts k0.key = keyParts k.key
    rw [hkeys]
  have h2 : r.length ≤ (kparts k0).length := by
    rw [hpts]
    omega
  exact eq_of_take_eq_len _ _ htake (le_antisymm h2 hqr)

theorem length_eq_of_nodup_mem_iff (l1 l2 : List TPath) (h1 : l1.Nodup)
    (h2 : l2.Nodup) (hm : ∀ x, x ∈ l1 ↔ x ∈ l2) : l1.length = l2.length := by
  rw [← List.toFinset_card_of_nodup h1, ← List.toFinset_card_of_nodup h2]
  congr 1
  ext x
  simp only [List.mem_toFinset]
  exact hm x

theorem build_leafcount (ks : List KeyMeta) (hne : ∀ k ∈ ks, k.key ≠ "")
    (hnd : (ks.map (fun k => k.key)).Nodup)
    (hpf : ∀ k ∈ ks, ∀ k2 ∈ ks,
      (kparts k2).take (kparts k).length = kparts k → k.key = k2.key) :
    (leafPathsOf (buildMapGo ks)).length = ks.length := by
  have hmnd := build_nodup ks
  have hlnd : (leafPathsOf (buildMapGo ks)).Nodup := hmnd.filter _
  have hknd : (ks.map kparts).Nodup := by
    have hmm : ks.map kparts = (ks.map (fun k => k.key)).map keyParts := by
      simp [kparts, Function.comp]
    rw [hmm]
    exact hnd.map (fun a b => keyParts_inj a b)
  have hmem : ∀ r, r ∈ leafPathsOf (buildMapGo ks) ↔ r ∈ ks.map kparts := by
    intro r
    constructor
    · intro h
      obtain ⟨hdom, hleaf⟩ := List.mem_filter.mp h
      obtain ⟨info, hf⟩ := pathFind_isSome_of_mem _ _ hdom
      have hil : info.leaf = true := by
        obtain ⟨info2, hf2, hl2⟩ := (isLeafPath_iff _ _).mp hleaf
        rw [hf] at hf2
        injection hf2 with hf2
        rw [hf2]
        exact hl2
      obtain ⟨k, hk, hr⟩ := (build_leaf_iff ks hpf r info hf).mp hil
      exact List.mem_map.mpr ⟨k, hk, hr.symm⟩
    · intro h
      obtain ⟨k, hk, hr⟩ := List.mem_map.mp h
      subst hr
      have hdom : kparts k ∈ domPaths (buildMapGo ks) := by
        apply (build_dom_iff ks _).mpr
        have hlp : 1 ≤ (kparts k).length := keyParts_length_pos k.key
        refine ⟨k, hk, hne k hk, (kparts k).length - 1, by omega, ?_⟩
        rw [show (kparts k).length - 1 + 1 = (kparts k).length by omega, take_self]
      apply List.mem_filter.mpr
      refine ⟨hdom, ?_⟩
      obtain ⟨info, hf⟩ := pathFind_isSome_of_mem _ _ hdom
      have hleaf : info.leaf = true := (build_leaf_iff ks hpf _ info hf).mpr ⟨k, hk, rfl⟩
      exact (isLeafPath_iff _ _).mpr ⟨info, hf, hleaf⟩
  have := length_eq_of_nodup_mem_iff _ _ hlnd hknd hmem
  rw [this, List.length_map]

/-! ### Counting leaves through the tree walk -/

theorem le_foldr_max (l : List Nat) (a : Nat) (h : a ∈ l) : a ≤ l.foldr max 0 := by
  induction l with
  | nil => cases h
  | cons b bs ih =>
      simp only [List.foldr_cons]
      rcases List.mem_cons.mp h with rfl | h2
      · exact le_max_left _ _
      · exact le_trans (ih h2) (le_max_right _ _)

theorem mem_dom_length_le (m : NodeMap) (p : TPath) (h : p ∈ domPaths m) :
    p.length ≤ mapDepth m := by
  apply le_foldr_max
  obtain ⟨e, he, rfl⟩ := List.mem_map.mp h
  exact List.mem_map.mpr ⟨e, he, rfl⟩

theorem filter_dec_len_one (l : List TPath) (a : TPath) (hnd : l.Nodup) (ha : a ∈ l) :
    (l.filter (fun x => decide (x = a))).length = 1 := by
  induction l with
  | nil => cases ha
  | cons b bs ih =>
      rw [List.nodup_cons] at hnd
      by_cases hba : b = a
      · subst hba
        have hnone : bs.filter (fun x => decide (x = b)) = [] :=
          List.filter_eq_nil_iff.mpr (fun x hx => by
            simp only [decide_eq_true_eq]
            rintro rfl
            exact hnd.1 hx)
        simp [List.filter_cons, hnone]
      · have ha2 : a ∈ bs := by
          rcases List.mem_cons.mp ha with h | h
          · exact absurd h.symm hba
          · exact h
        have hne : (decide (b = a)) = false := by simp [hba]
        simp only [List.filter_cons, hne, Bool.false_eq_true, if_false]
        exact ih hnd.2 ha2

theorem filter_length_eq_one (l : List TPath) (φ : TPath → Bool) (a : TPath)
    (hnd : l.Nodup) (ha : a ∈ l) (hiff : ∀ x ∈ l, φ x = true ↔ x = a) :
    (l.filter φ).length = 1 := by
  have hcongr : l.filter φ = l.filter (fun x => decide (x = a)) := by
    apply List.filter_congr
    intro x hx
    rcases hφ : φ x with _ | _
    · symm
      rw [decide_eq_false_iff_not]
      intro hxa
      rw [(hiff x hx).mpr hxa] at hφ
      exact Bool.noConfusion hφ
    · symm
      rw [decide_eq_true_eq]
      exact (hiff x hx).mp hφ
  rw [hcongr]
  exact filter_dec_len_one l a hnd ha

theorem leafExtsOf_mem (m : NodeMap) (q r : TPath) :
    r ∈ leafExtsOf m q ↔
      r ∈ domPaths m ∧ isLeafPath m r = true ∧ r.take q.length = q := by
  simp only [leafExtsOf, List.mem_filter, Bool.and_eq_true, beq_iff_eq]

theorem leafPathsOf_mem (m : NodeMap) (r : TPath) :
    r ∈ leafPathsOf m ↔ r ∈ domPaths m ∧ isLeafPath m r = true := by
  simp only [leafPathsOf, List.mem_filter]

theorem childPaths_mem (m : NodeMap) (p c : TPath) :
    c ∈ childPaths m p ↔
      c ∈ domPaths m ∧ 2 ≤ c.length ∧ c.dropLast = p := by
  simp only [childPaths, domPaths, List.mem_filter, Bool.and_eq_true, beq_iff_eq,
    decide_eq_true_eq]

theorem childPaths_length (m : NodeMap) (p c : TPath) (h : c ∈ childPaths m p) :
    c.length = p.length + 1 := by
  obtain ⟨_, h2, h3⟩ := (childPaths_mem m p c).mp h
  have hl := congrArg List.length h3
  rw [List.length_dropLast] at hl
  omega

theorem rootPaths_mem (m : NodeMap) (q : TPath) :
    q ∈ rootPaths m ↔ q ∈ domPaths m ∧ q.length = 1 := by
  simp only [rootPaths, domPaths, List.mem_filter, beq_iff_eq]

theorem length_partition (L C : List TPath) (f : TPath → TPath)
    (g : TPath → List TPath) (hLnd : L.Nodup) (hCnd : C.Nodup)
    (hgnd : ∀ c ∈ C, (g c).Nodup)
    (hmaps : ∀ r ∈ L, f r ∈ C)
    (hfib : ∀ c ∈ C, ∀ r, r ∈ g c ↔ (r ∈ L ∧ f r = c)) :
    L.length = (C.map (fun c => (g c).length)).sum := by
  rw [← List.toFinset_card_of_nodup hLnd]
  have hcard : L.toFinset.card
      = ∑ c ∈ C.toFinset, (L.toFinset.filter (fun r => f r = c)).card :=
    Finset.card_eq_sum_card_fiberwise
      (fun r hr => List.mem_toFinset.mpr (hmaps r (List.mem_toFinset.mp hr)))
  rw [hcard]
  have hfc : ∀ c ∈ C.toFinset,
      (L.toFinset.filter (fun r => f r = c)).card = (g c).length := by
    intro c hc
    rw [List.mem_toFinset] at hc
    have hset : L.toFinset.filter (fun r => f r = c) = (g c).toFinset := by
      ext r
      simp only [Finset.mem_filter, List.mem_toFinset]
      rw [hfib c hc r]
    rw [hset, List.toFinset_card_of_nodup (hgnd c hc)]
  rw [Finset.sum_congr rfl hfc, List.sum_toFinset _ hCnd]

theorem leafExts_of_leaf (ks : List KeyMeta)
    (hpf : ∀ k ∈ ks, ∀ k2 ∈ ks,
      (kparts k2).take (kparts k).length = kparts k → k.key = k2.key)
    (p : TPath) (hp : p ∈ domPaths (buildMapGo ks))
    (hleaf : isLeafPath (buildMapGo ks) p = true) :
    (leafExtsOf (buildMapGo ks) p).length = 1 := by
  apply filter_length_eq_one _ _ p (build_nodup ks) hp
  intro x hx
  constructor
  · intro hφ
    rw [Bool.and_eq_true, beq_iff_eq] at hφ
    exact build_leaf_maximal ks hpf p hp hleaf x hx hφ.2
  · rintro rfl
    rw [Bool.and_eq_true, beq_iff_eq]
    exact ⟨hleaf, take_self x⟩

theorem leafExts_partition (ks : List KeyMeta) (p : TPath)
    (hp : p ∈ domPaths (buildMapGo ks))
    (hleaf : isLeafPath (buildMapGo ks) p = false) :
    (leafExtsOf (buildMapGo ks) p).length
      = ((childPaths (buildMapGo ks) p).map
          (fun c => (leafExtsOf (buildMapGo ks) c).length)).sum := by
  have hdnd := build_nodup ks
  have hplen : 1 ≤ p.length := build_dom_len_pos ks p hp
  have hlong : ∀ r ∈ leafExtsOf (buildMapGo ks) p, p.length < r.length := by
    intro r hr
    obtain ⟨hrd, hrleaf, hrtake⟩ := (leafExtsOf_mem _ _ _).mp hr
    have hrne : r ≠ p := by
      rintro rfl
      rw [hrleaf] at hleaf
      exact Bool.noConfusion hleaf
    have hle := le_length_of_take_eq p r hrtake
    rcases Nat.lt_or_ge p.length r.length with h | h
    · exact h
    · exact absurd (eq_of_take_eq_len p r hrtake (le_antisymm h hle)) hrne
  apply length_partition _ _ (fun r => r.take (p.length + 1)) _
    (hdnd.filter _) (hdnd.filter _) (fun c _ => hdnd.filter _)
  · intro r hr
    obtain ⟨hrd, hrleaf, hrtake⟩ := (leafExtsOf_mem _ _ _).mp hr
    have hlt := hlong r hr
    have hcd : r.take (p.length + 1) ∈ domPaths (buildMapGo ks) :=
      build_closed ks r hrd (p.length + 1) (by omega) (by omega)
    apply (childPaths_mem _ _ _).mpr
    refine ⟨hcd, ?_, ?_⟩
    · rw [take_length_of_le r (p.length + 1) (by omega)]
      omega
    · rw [dropLast_take r p.length (by omega)]
      exact hrtake
  · intro c hc r
    obtain ⟨hcd, hclen2, hcdrop⟩ := (childPaths_mem _ _ _).mp hc
    have hclen : c.length = p.length + 1 := childPaths_length _ _ _ hc
    constructor
    · intro hrc
      obtain ⟨hrd, hrleaf, hrtc⟩ := (leafExtsOf_mem _ _ _).mp hrc
      have h1 : r.take p.length = c.take p.length := by
        rw [← hrtc, take_of_take r c.length p.length (by omega)]
      have h2 : c.take p.length = p := by
        have hdp : c.take (c.length - 1) = p := by
          rw [← dropLast_eq_take_pred]
          exact hcdrop
        rw [show p.length = c.length - 1 from by omega]
        exact hdp
      refine ⟨(leafExtsOf_mem _ _ _).mpr ⟨hrd, hrleaf, h1.trans h2⟩, ?_⟩
      rw [← hclen]
      exact hrtc
    · rintro ⟨hrL, hfr⟩
      obtain ⟨hrd, hrleaf, hrtake⟩ := (leafExtsOf_mem _ _ _).mp hrL
      apply (leafExtsOf_mem _ _ _).mpr
      refine ⟨hrd, hrleaf, ?_⟩
      rw [hclen]
      exact hfr

theorem leafPaths_root_partition (ks : List KeyMeta) :
    (leafPathsOf (buildMapGo ks)).length
      = ((rootPaths (buildMapGo ks)).map
          (fun q => (leafExtsOf (buildMapGo ks) q).length)).sum := by
  have hdnd := build_nodup ks
  apply length_partition _ _ (fun r => r.take 1) _
    (hdnd.filter _) (hdnd.filter _) (fun c _ => hdnd.filter _)
  · intro r hr
    obtain ⟨hrd, hrleaf⟩ := (leafPathsOf_mem _ _).mp hr
    have hpos : 1 ≤ r.length := build_dom_len_pos ks r hrd
    apply (rootPaths_mem _ _).mpr
    refine ⟨build_closed ks r hrd 1 (by omega) (by omega), ?_⟩
    exact take_length_of_le r 1 (by omega)
  · intro q hq r
    obtain ⟨hqd, hqlen⟩ := (rootPaths_mem _ _).mp hq
    constructor
    · intro hrq
      obtain ⟨hrd, hrleaf, hrt⟩ := (leafExtsOf_mem _ _ _).mp hrq
      refine ⟨(leafPathsOf_mem _ _).mpr ⟨hrd, hrleaf⟩, ?_⟩
      rw [← hqlen]
      exact hrt
    · rintro ⟨hrL, hfr⟩
      obtain ⟨hrd, hrleaf⟩ := (leafPathsOf_mem _ _).mp hrL
      apply (leafExtsOf_mem _ _ _).mpr
      refine ⟨hrd, hrleaf, ?_⟩
      rw [hqlen]
      exact hfr

theorem countKeysAux_eq (ks : List KeyMeta)
    (hpf : ∀ k ∈ ks, ∀ k2 ∈ ks,
      (kparts k2).take (kparts k).length = kparts k → k.key = k2.key) :
    ∀ fuel p, p ∈ domPaths (buildMapGo ks) →
      mapDepth (buildMapGo ks) < p.length + fuel →
      countKeysAux (buildMapGo ks) fuel p
        = (leafExtsOf (buildMapGo ks) p).length := by
  intro fuel
  induction fuel with
  | zero =>
      intro p hp hlt
      have := mem_dom_length_le _ p hp
      omega
  | succ fuel ih =>
      intro p hp hlt
      rcases hleaf : isLeafPath (buildMapGo ks) p with _ | _
      · rw [show countKeysAux (buildMapGo ks) (fuel + 1) p
            = ((childPaths (buildMapGo ks) p).map
                (countKeysAux (buildMapGo ks) fuel)).sum from by
          simp [countKeysAux, hleaf]]
        rw [leafExts_partition ks p hp hleaf]
        congr 1
        apply List.map_congr_left
        intro c hc
        have hcd := ((childPaths_mem _ _ _).mp hc).1
        have hclen := childPaths_length _ _ _ hc
        exact ih c hcd (by omega)
      · rw [show countKeysAux (buildMapGo ks) (fuel + 1) p = 1 from by
          simp [countKeysAux, hleaf]]
        exact (leafExts_of_leaf ks hpf p hp hleaf).symm

theorem countKeys_eq (ks : List KeyMeta)
    (hpf : ∀ k ∈ ks, ∀ k2 ∈ ks,
      (kparts k2).take (kparts k).length = kparts k → k.key = k2.key)
    (p : TPath) (hp : p ∈ domPaths (buildMapGo ks)) :
    countKeys (buildMapGo ks) p = (leafExtsOf (buildMapGo ks) p).length :=
  countKeysAux_eq ks hpf (mapDepth (buildMapGo ks) + 1) p hp (by omega)

/-! ### C7: the per-root aggregate sum versus the batch size -/

/-- Counterexample to C7 as stated: in the batch `[a, a:b]` the key `a` is
both an exact key and a prefix of `a:b`; `countKeys` returns 1 at the leaf
node `a` without visiting its child, so the root sum is 1 while the batch
holds 2 descriptors. -/
theorem c7_counterexample : treeKeyCountSum c7Batch = 1 ∧ c7Batch.length = 2 :=
  ⟨rfl, rfl⟩

/-- C7 (amended): for every batch of descriptors with nonempty, pairwise
distinct names in which no name's segment list is a prefix of another
name's segment list, the sum of `countKeys` over the top-level root nodes
of the built tree equals the number of descriptors in the batch.  (The
unamended claim fails when one name is both an exact key and a prefix of
another, because `countKeys` stops at a leaf node and ignores its
children: see the counterexample with batch `[a, a:b]`.) -/
theorem c7_amended_prefix_free_leaf_sum (ks : List KeyMeta)
    (hne : ∀ k ∈ ks, k.key ≠ "")
    (hnd : (ks.map (fun k => k.key)).Nodup)
    (hpf : ∀ k ∈ ks, ∀ k2 ∈ ks,
      (kparts k2).take (kparts k).length = kparts k → k.key = k2.key) :
    treeKeyCountSum ks = ks.length := by
  have hmap : ∀ q ∈ rootPaths (buildMapGo ks),
      countKeys (buildMapGo ks) q = (leafExtsOf (buildMapGo ks) q).length := by
    intro q hq
    exact countKeys_eq ks hpf q ((rootPaths_mem _ _).mp hq).1
  calc treeKeyCountSum ks
      = ((rootPaths (buildMapGo ks)).map (countKeys (buildMapGo ks))).sum := rfl
    _ = ((rootPaths (buildMapGo ks)).map
          (fun q => (leafExtsOf (buildMapGo ks) q).length)).sum := by
        rw [List.map_congr_left hmap]
    _ = (leafPathsOf (buildMapGo ks)).length := (leafPaths_root_partition ks).symm
    _ = ks.length := build_leafcount ks hne hnd hpf

theorem c7_amended_prefix_free_leaf_sum_witness :
    ((∀ k ∈ specTreeBatch, k.key ≠ "") ∧
     (specTreeBatch.map (fun k => k.key)).Nodup ∧
     (∀ k ∈ specTreeBatch, ∀ k2 ∈ specTreeBatch,
       (kparts k2).take (kparts k).length = kparts k → k.key = k2.key)) ∧
    treeKeyCountSum specTreeBatch = specTreeBatch.length :=
  ⟨⟨by decide, by decide, by decide⟩,
   c7_amended_prefix_free_leaf_sum specTreeBatch (by decide) (by decide) (by decide)⟩

/-! ### C8: a path that is both an exact key and a folder -/

theorem insKP_exact (m : NodeMap) (k : KeyMeta) (hk : k.key ≠ "")
    (h0 : pathFind m (kparts k) = none) :
    pathFind (insertKeyPaths m k) (kparts k)
      = some (mkNodeInfo k (kparts k) ((kparts k).length - 1)) := by
  have hlp : 1 ≤ (kparts k).length := keyParts_length_pos k.key
  have hdom : (kparts k).take ((kparts k).length - 1 + 1)
      ∈ domPaths (insertKeyPaths m k) :=
    insKP_creates m k ((kparts k).length - 1) hk (by omega)
  rw [show (kparts k).length - 1 + 1 = (kparts k).length from by omega,
    take_self] at hdom
  obtain ⟨info, hf⟩ := pathFind_isSome_of_mem _ _ hdom
  obtain ⟨_, i, hi, hp, hinfo⟩ := insKP_info_src m k (kparts k) info h0 hf
  have hlen : (kparts k).length = i + 1 := by
    have hcg := congrArg List.length hp
    rw [take_length_of_le _ _ (by omega)] at hcg
    exact hcg
  rw [show i = (kparts k).length - 1 from by omega] at hinfo
  rw [hf, hinfo]

theorem prefix_free_pre_absent (pre : List KeyMeta) (k : KeyMeta)
    (hpre : ∀ k0 ∈ pre, (kparts k0).take (kparts k).length ≠ kparts k) :
    pathFind (buildMapGo pre) (kparts k) = none := by
  apply (pathFind_eq_none_iff _ _).mpr
  intro hmem
  rcases buildFold_dom_sub pre [] (kparts k) hmem with hm | ⟨k0, hk0, _, i, hi, hp⟩
  · simp [domPaths] at hm
  · apply hpre k0 hk0
    have hlen : (kparts k).length = i + 1 := by
      have hcg := congrArg List.length hp
      rw [take_length_of_le _ _ (by omega)] at hcg
      exact hcg
    rw [hlen]
    exact hp.symm

/-- C8 counterexample: with input order `[a:b, a]` the node for path `a`
is created as a folder while `a:b` is inserted, and the later exact key
`a` never updates it (insert-if-absent), so the node carries the folder
placeholders (`leaf = false`, type `"folder"`, ttl −1) instead of the
exact key's attributes (type `"string"`, ttl 10) — refuting the claim's
"in either input order"; the children are nonempty as claimed. -/
theorem c8_counterexample :
    pathFind (buildMapGo c8Batch) (keyParts "a")
      = some ⟨false, "folder", qint (-1)⟩ ∧
    childPaths (buildMapGo c8Batch) (keyParts "a") ≠ [] :=
  ⟨rfl, by decide⟩

/-- C8 (amended): when the exact key comes first — no earlier descriptor's
segment list reaches it as a prefix — the node at its path keeps the exact
key's leaf attributes (`leaf = true`, its type, its ttl), and if any
descriptor in the batch properly extends that path the node also has a
nonempty children sequence.  (In the opposite order the node is created as
a folder and never updated: see the counterexample.) -/
theorem c8_exact_key_first_leaf_and_folder (pre post : List KeyMeta)
    (k k2 : KeyMeta) (hk : k.key ≠ "")
    (hpre : ∀ k0 ∈ pre, (kparts k0).take (kparts k).length ≠ kparts k)
    (hk2 : k2 ∈ pre ++ k :: post) (hk2ne : k2.key ≠ "")
    (hext : (kparts k2).take (kparts k).length = kparts k)
    (hlt : (kparts k).length < (kparts k2).length) :
    pathFind (buildMapGo (pre ++ k :: post)) (kparts k)
      = some ⟨true, k.ty, k.ttl⟩ ∧
    childPaths (buildMapGo (pre ++ k :: post)) (kparts k) ≠ [] := by
  have hlp : 1 ≤ (kparts k).length := keyParts_length_pos k.key
  constructor
  · have hsplit : buildMapGo (pre ++ k :: post)
        = (k :: post).foldl insertKeyPaths (buildMapGo pre) := by
      simp [buildMapGo, List.foldl_append]
    rw [hsplit]
    simp only [List.foldl_cons]
    have h0 := prefix_free_pre_absent pre k hpre
    have hx := insKP_exact (buildMapGo pre) k hk h0
    have hpers := buildFold_pers post _ _ _ hx
    rw [hpers]
    congr 1
    simp [mkNodeInfo, show (kparts k).length - 1 + 1 = (kparts k).length
      from by omega]
  · have hcd : (kparts k2).take ((kparts k).length + 1)
        ∈ domPaths (buildMapGo (pre ++ k :: post)) :=
      (build_dom_iff _ _).mpr ⟨k2, hk2, hk2ne, (kparts k).length, hlt, rfl⟩
    have hchild : (kparts k2).take ((kparts k).length + 1)
        ∈ childPaths (buildMapGo (pre ++ k :: post)) (kparts k) := by
      apply (childPaths_mem _ _ _).mpr
      refine ⟨hcd, ?_, ?_⟩
      · rw [take_length_of_le _ _ (by omega)]
        omega
      · rw [dropLast_take _ _ (by omega)]
        exact hext
    exact List.ne_nil_of_mem hchild

theorem c8_exact_key_first_leaf_and_folder_witness :
    pathFind
        (buildMapGo ([] ++ (⟨"a", ⟨10, 1⟩, "string"⟩ : KeyMeta)
          :: [⟨"a:b", ⟨20, 1⟩, "string"⟩]))
        (kparts ⟨"a", ⟨10, 1⟩, "string"⟩)
      = some ⟨true, "string", ⟨10, 1⟩⟩ ∧
    childPaths
        (buildMapGo ([] ++ (⟨"a", ⟨10, 1⟩, "string"⟩ : KeyMeta)
          :: [⟨"a:b", ⟨20, 1⟩, "string"⟩]))
        (kparts ⟨"a", ⟨10, 1⟩, "string"⟩) ≠ [] :=
  c8_exact_key_first_leaf_and_folder [] [⟨"a:b", ⟨20, 1⟩, "string"⟩]
    ⟨"a", ⟨10, 1⟩, "string"⟩ ⟨"a:b", ⟨20, 1⟩, "string"⟩
    (by decide)
    (fun k0 h0 => absurd h0 (List.not_mem_nil k0))
    (List.mem_append_right _ (List.mem_cons_of_mem _ (List.mem_cons_self _ _)))
    (by decide) (by decide) (by decide)

theorem c3_amended_shape_mismatch_witness :
    (isArrJ .null = false ∧
     setKeyGo c3Store "z" "list" .null ⟨0, 1⟩ = (.panicked, c3Store, [])) ∧
    (isObjJ (.str (bstr "x")) = false ∧
     setKeyGo c3Store "z" "hash" (.str (bstr "x")) ⟨0, 1⟩
       = (.panicked, c3Store, [])) ∧
    (zElemBad (.obj []) = true ∧
     (setKeyGo c3Store "z" "zset" (.arr ([] ++ (.obj []) :: [])) ⟨0, 1⟩).1
       = .panicked ∧
     (setKeyGo c3Store "z" "zset" (.arr ([] ++ (.obj []) :: [])) ⟨0, 1⟩).2.2.head?
       = some (.delCmd "z")) :=
  ⟨⟨rfl, (c3_amended_shape_mismatch.1 c3Store "z" .null ⟨0, 1⟩ rfl).1⟩,
   ⟨rfl, c3_amended_shape_mismatch.2.1 c3Store "z" (.str (bstr "x")) ⟨0, 1⟩ rfl⟩,
   ⟨rfl, c3_amended_shape_mismatch.2.2 c3Store "z" ⟨0, 1⟩ [] (.obj []) []
      (fun x hx => absurd hx (List.not_mem_nil x)) rfl⟩⟩

end WebRedis
